import Mathlib

/-!
Verification of the semi-structured content extraction subsystem of the
nometa repository (src/scripts/server.js).  Strings are modelled as
`List Char`; each JavaScript function of the subsystem is translated into a
computable Lean definition, and the specification's claims are settled as
theorems about those definitions.
-/

namespace NoMeta

/-! ## Basic string utilities

Character-list models of the JavaScript string primitives used by the
extraction code: prefix test, substring test (String.prototype.includes),
first-occurrence index (String.prototype.indexOf). -/

/-- Boolean test that `pat` is a prefix of `l`. -/
def startsWithSeq : List Char → List Char → Bool
  | [], _ => true
  | _ :: _, [] => false
  | p :: ps, c :: cs => p == c && startsWithSeq ps cs

/-- Boolean substring test, the model of JavaScript String.prototype.includes. -/
def containsSeq (pat : List Char) : List Char → Bool
  | [] => startsWithSeq pat []
  | l@(_ :: t) => startsWithSeq pat l || containsSeq pat t

/-- First index at which `pat` occurs in `l`, the model of JavaScript
String.prototype.indexOf (result -1 becomes `none`). -/
def indexOfSeq (pat : List Char) : List Char → Option Nat
  | [] => if startsWithSeq pat [] then some 0 else none
  | l@(_ :: t) =>
    if startsWithSeq pat l then some 0
    else (indexOfSeq pat t).map (· + 1)

theorem startsWithSeq_iff (pat l : List Char) :
    startsWithSeq pat l = true ↔ pat <+: l := by
  induction pat generalizing l with
  | nil => simp [startsWithSeq]
  | cons p ps ih =>
    cases l with
    | nil => simp [startsWithSeq]
    | cons c cs =>
      simp [startsWithSeq, ih, List.cons_prefix_cons, Bool.and_eq_true, beq_iff_eq]

theorem startsWithSeq_append (pat rest : List Char) :
    startsWithSeq pat (pat ++ rest) = true := by
  rw [startsWithSeq_iff]; exact List.prefix_append pat rest

theorem containsSeq_cons (pat : List Char) (c : Char) (t : List Char) :
    containsSeq pat (c :: t) = (startsWithSeq pat (c :: t) || containsSeq pat t) := rfl

theorem containsSeq_cons_false {pat : List Char} {c : Char} {t : List Char}
    (h : containsSeq pat (c :: t) = false) : containsSeq pat t = false := by
  rw [containsSeq_cons] at h
  exact (Bool.or_eq_false_iff.mp h).2

theorem startsWithSeq_false_of_containsSeq_false {pat : List Char} {c : Char} {t : List Char}
    (h : containsSeq pat (c :: t) = false) : startsWithSeq pat (c :: t) = false := by
  rw [containsSeq_cons] at h
  exact (Bool.or_eq_false_iff.mp h).1

/-- A prefix of length at most `n + length f` of `f ++ r` is already a prefix
of `f ++ r.take n`. -/
theorem prefix_append_take {pat f r : List Char} {n : Nat}
    (hp : pat <+: f ++ r) (hn : pat.length ≤ f.length + n) :
    pat <+: f ++ r.take n := by
  have hpat : pat = (f ++ r).take pat.length := List.prefix_iff_eq_take.mp hp
  by_cases hfl : pat.length ≤ f.length
  · have hf : pat <+: f := by
      rw [hpat, List.take_append_of_le_length hfl]
      exact List.take_prefix _ _
    exact hf.trans (List.prefix_append _ _)
  · push_neg at hfl
    have h1 : pat = f ++ r.take (pat.length - f.length) := by
      conv_lhs => rw [hpat]
      rw [List.take_append_eq_append_take, List.take_of_length_le hfl.le]
    have h2 : r.take (pat.length - f.length) <+: r.take n := by
      have h3 : r.take (pat.length - f.length) = (r.take n).take (pat.length - f.length) := by
        rw [List.take_take, Nat.min_eq_left (by omega)]
      rw [h3]
      exact List.take_prefix _ _
    rcases h2 with ⟨t, ht⟩
    exact ⟨t, by rw [h1, ← ht, List.append_assoc]⟩

/-! ## Payload Extractor (extractRSCPayloads, server.js lines 553-588)

The JavaScript decodes each captured payload through a chain of global
regex replacements; each two-character replacement pass is modelled by
`replPair`, and the backslash-u escape pass by `replUnicode`.  A global
JavaScript replace is a single left-to-right non-overlapping scan, which is
exactly the recursion below. -/

/-- One global pass replacing the two-character sequence `x y` by the single
character `z` (left-to-right, non-overlapping). -/
def replPair (x y z : Char) : List Char → List Char
  | [] => []
  | [c] => [c]
  | a :: b :: t =>
    if a = x ∧ b = y then z :: replPair x y z t
    else a :: replPair x y z (b :: t)

/-- Hexadecimal digit test, as in the character class of the backslash-u
replacement regex on line 570. -/
def isHexDigit (c : Char) : Bool :=
  c.isDigit || ('a' ≤ c && c ≤ 'f') || ('A' ≤ c && c ≤ 'F')

/-- Numeric value of one hexadecimal digit. -/
def hexVal (c : Char) : Nat :=
  if c.isDigit then c.toNat - 48
  else if 'a' ≤ c then c.toNat - 87
  else c.toNat - 55

/-- Value of a four-digit hexadecimal sequence. -/
def hexNum4 (a b c d : Char) : Nat :=
  ((hexVal a * 16 + hexVal b) * 16 + hexVal c) * 16 + hexVal d

/-- One global pass replacing backslash-u-XXXX escapes by the character with
that code (line 570); `Char.ofNat` stands in for JavaScript
String.fromCharCode, with which it agrees below the surrogate range. -/
def replUnicode : List Char → List Char
  | '\\' :: 'u' :: a :: b :: c :: d :: t =>
    if isHexDigit a && isHexDigit b && isHexDigit c && isHexDigit d then
      Char.ofNat (hexNum4 a b c d) :: replUnicode t
    else '\\' :: replUnicode ('u' :: a :: b :: c :: d :: t)
  | c :: t => c :: replUnicode t
  | [] => []

/-- First-pass unescape chain of extractRSCPayloads, lines 565-570:
backslash-quote, backslash-n, backslash-t, double-backslash, backslash-u,
in that order. -/
def rscUnescape1 (l : List Char) : List Char :=
  replUnicode (replPair '\\' '\\' '\\'
    (replPair '\\' 't' '\t' (replPair '\\' 'n' '\n' (replPair '\\' '"' '"' l))))

/-- Second-pass unescape chain, lines 575-579: the same four two-character
passes, without the backslash-u pass. -/
def rscUnescape2 (l : List Char) : List Char :=
  replPair '\\' '\\' '\\'
    (replPair '\\' 't' '\t' (replPair '\\' 'n' '\n' (replPair '\\' '"' '"' l)))

/-- Decode one captured payload, lines 563-581: the second pass runs only
when the flag is set and an escaped quote remains after the first pass. -/
def decodePayload (doubleUnescape : Bool) (raw : List Char) : List Char :=
  let u := rscUnescape1 raw
  if doubleUnescape && containsSeq ['\\', '"'] u then rscUnescape2 u else u

/-- Characters of the call-site prefix of the payload push pattern on
line 557 (23 characters). -/
def pushPrefix : List Char := "self.__next_f.push([1,\"".data

/-- Terminator of the call-site pattern: quote, close bracket, close paren. -/
def closeMark : List Char := ['"', ']', ')']

/-- Earliest split of `l` at an occurrence of the terminator: returns the
characters before the terminator and the rest after it. -/
def captureTail : List Char → Option (List Char × List Char)
  | [] => none
  | c :: cs =>
    if startsWithSeq closeMark (c :: cs) then some ([], cs.drop 2)
    else
      match captureTail cs with
      | some (cap, rest) => some (c :: cap, rest)
      | none => none

/-- Model of the non-greedy capture of the call-site regex argument: at
least one character, up to the earliest terminator occurrence. -/
def captureArg : List Char → Option (List Char × List Char)
  | [] => none
  | c :: cs =>
    match captureTail cs with
    | some (cap, rest) => some (c :: cap, rest)
    | none => none

theorem captureTail_length {l cap rest : List Char}
    (h : captureTail l = some (cap, rest)) :
    l.length = cap.length + 3 + rest.length := by
  induction l generalizing cap with
  | nil => simp [captureTail] at h
  | cons c cs ih =>
    rw [captureTail] at h
    by_cases hs : startsWithSeq closeMark (c :: cs) = true
    · rw [if_pos hs] at h
      obtain ⟨rfl, rfl⟩ : cap = [] ∧ cs.drop 2 = rest := by
        simpa using h
      have hp : closeMark <+: c :: cs := (startsWithSeq_iff _ _).mp hs
      have h3 : 3 ≤ (c :: cs).length := hp.length_le
      simp only [List.length_cons, List.length_drop, List.length_nil]
      simp at h3
      omega
    · rw [if_neg hs] at h
      cases hcc : captureTail cs with
      | none => rw [hcc] at h; simp at h
      | some p =>
        rw [hcc] at h
        obtain ⟨cap', rest'⟩ := p
        simp only [Option.some.injEq, Prod.mk.injEq] at h
        obtain ⟨h1, h2⟩ := h
        subst h1 h2
        have := ih hcc
        simp [List.length_cons, this]
        omega

theorem captureArg_length {l cap rest : List Char}
    (h : captureArg l = some (cap, rest)) :
    l.length = cap.length + 3 + rest.length := by
  cases l with
  | nil => simp [captureArg] at h
  | cons c cs =>
    rw [captureArg] at h
    cases hcc : captureTail cs with
    | none => rw [hcc] at h; simp at h
    | some p =>
      rw [hcc] at h
      obtain ⟨cap', rest'⟩ := p
      simp only [Option.some.injEq, Prod.mk.injEq] at h
      obtain ⟨h1, h2⟩ := h
      subst h1 h2
      have := captureTail_length hcc
      simp [List.length_cons, this]
      omega

/-- Fuel-indexed scan of the global call-site regex of lines 557-585: at
each position, if the prefix matches and a terminator exists at least one
character later, the argument is captured, decoded and the scan resumes
after the call; otherwise the scan advances one character. -/
def scanPushes (du : Bool) : Nat → List Char → List (List Char)
  | 0, _ => []
  | _, [] => []
  | fuel + 1, l@(_ :: t) =>
    if startsWithSeq pushPrefix l then
      match captureArg (l.drop 23) with
      | some (cap, rest) => decodePayload du cap :: scanPushes du fuel rest
      | none => scanPushes du fuel t
    else scanPushes du fuel t

/-- Model of extractRSCPayloads (lines 553-588): scan the whole input with
fuel equal to its length, which the scan never exhausts. -/
def extractRSCPayloads (html : List Char) (doubleUnescape : Bool) : List (List Char) :=
  scanPushes doubleUnescape html.length html


/-! ## Decode-pass lemmas for the payload extractor -/

theorem replPair_hit (x y z : Char) (l : List Char) :
    replPair x y z (x :: y :: l) = z :: replPair x y z l := by
  rw [replPair, if_pos ⟨rfl, rfl⟩]

theorem replPair_cons_of_ne {a x : Char} (y z : Char) (l : List Char) (h : a ≠ x) :
    replPair x y z (a :: l) = a :: replPair x y z l := by
  cases l with
  | nil => rfl
  | cons b t => rw [replPair, if_neg (fun hc => h hc.1)]

theorem replPair_cons_of_ne2 {b y : Char} (x z : Char) (a : Char) (l : List Char) (h : b ≠ y) :
    replPair x y z (a :: b :: l) = a :: replPair x y z (b :: l) := by
  rw [replPair, if_neg (fun hc => h hc.2)]

theorem replPair_id_of_not_mem {x : Char} (y z : Char) {l : List Char}
    (h : ∀ c ∈ l, c ≠ x) : replPair x y z l = l := by
  induction l with
  | nil => rfl
  | cons c t ih =>
    rw [replPair_cons_of_ne y z t (h c (List.mem_cons_self c t)), ih fun d hd => h d (List.mem_cons_of_mem c hd)]

theorem replUnicode_cons_of_ne {a : Char} (l : List Char) (h : a ≠ '\\') :
    replUnicode (a :: l) = a :: replUnicode l := by
  rw [replUnicode.eq_def]
  split <;> simp_all

theorem replUnicode_bs_cons_of_ne {b : Char} (l : List Char) (h : b ≠ 'u') :
    replUnicode ('\\' :: b :: l) = '\\' :: replUnicode (b :: l) := by
  rw [replUnicode.eq_def]
  split
  · simp_all
  · rename_i c t heq
    injection heq with h1 h2
    subst h1
    subst h2
    rfl
  · simp_all

theorem replUnicode_id_of_not_mem {l : List Char}
    (h : ∀ c ∈ l, c ≠ '\\') : replUnicode l = l := by
  induction l with
  | nil => rfl
  | cons c t ih =>
    rw [replUnicode_cons_of_ne t (h c (List.mem_cons_self c t)), ih fun d hd => h d (List.mem_cons_of_mem c hd)]

/-! ## Spec-side JSON-style escaping and the double-unescape round trip (C2) -/

/-- Escape of one character under the JSON-style string escaping the spec's
decoder handles (section 4.1): quote, backslash, newline and tab. -/
def escChar (c : Char) : List Char :=
  if c = '"' then ['\\', '"']
  else if c = '\\' then ['\\', '\\']
  else if c = '\n' then ['\\', 'n']
  else if c = '\t' then ['\\', 't']
  else [c]

/-- Spec-side JSON-style string escaping: one layer of escaping applied to
every character. -/
def jsonEscapeStr : List Char → List Char
  | [] => []
  | c :: t => escChar c ++ jsonEscapeStr t

/-- Scaffolding encoder: each quote becomes `k` backslashes followed by a
quote, all other characters are unchanged.  The stages of the decode chain
applied to a doubly escaped backslash-free string are all of this form. -/
def quoteEnc (k : Nat) : List Char → List Char
  | [] => []
  | c :: t => (if c = '"' then List.replicate k '\\' ++ ['"'] else [c]) ++ quoteEnc k t

theorem quoteEnc_zero (s : List Char) : quoteEnc 0 s = s := by
  induction s with
  | nil => rfl
  | cons c t ih =>
    rw [quoteEnc, ih]
    by_cases h : c = '"'
    · subst h; simp
    · rw [if_neg h]; rfl

theorem quoteEnc_id_of_no_quote {s : List Char} (h : '"' ∉ s) : quoteEnc 1 s = s := by
  induction s with
  | nil => rfl
  | cons c t ih =>
    have hc : c ≠ '"' := fun hq => h (hq ▸ List.mem_cons_self c t)
    rw [quoteEnc, if_neg hc, ih fun hq => h (List.mem_cons_of_mem c hq)]
    rfl

theorem quoteEnc_ne_nil {k : Nat} {s : List Char} (h : s ≠ []) : quoteEnc k s ≠ [] := by
  cases s with
  | nil => exact absurd rfl h
  | cons c t =>
    rw [quoteEnc]
    by_cases hc : c = '"'
    · rw [if_pos hc]; simp
    · rw [if_neg hc]; simp

theorem jsonEscapeStr_append (a b : List Char) :
    jsonEscapeStr (a ++ b) = jsonEscapeStr a ++ jsonEscapeStr b := by
  induction a with
  | nil => rfl
  | cons c t ih => simp [jsonEscapeStr, ih]

/-- A doubly escaped backslash-, newline- and tab-free string is the
three-backslash quote encoding. -/
theorem doubleEscape_eq_quoteEnc3 {s : List Char}
    (hbs : '\\' ∉ s) (hnl : '\n' ∉ s) (htb : '\t' ∉ s) :
    jsonEscapeStr (jsonEscapeStr s) = quoteEnc 3 s := by
  induction s with
  | nil => rfl
  | cons c t ih =>
    have hc1 : c ≠ '\\' := fun h => hbs (h ▸ List.mem_cons_self c t)
    have hc2 : c ≠ '\n' := fun h => hnl (h ▸ List.mem_cons_self c t)
    have hc3 : c ≠ '\t' := fun h => htb (h ▸ List.mem_cons_self c t)
    have iht := ih (fun h => hbs (List.mem_cons_of_mem c h))
      (fun h => hnl (List.mem_cons_of_mem c h)) (fun h => htb (List.mem_cons_of_mem c h))
    rw [jsonEscapeStr, jsonEscapeStr_append, iht, quoteEnc]
    by_cases hq : c = '"'
    · subst hq
      simp [escChar, jsonEscapeStr, List.replicate]
    · rw [escChar, if_neg hq, if_neg hc1, if_neg hc2, if_neg hc3]
      simp [jsonEscapeStr, escChar, if_neg hq, if_neg hc1, if_neg hc2, if_neg hc3]

theorem replPair_bs_y_group {y : Char} (z : Char) (hy1 : y ≠ '\\') (hy2 : y ≠ '"') :
    ∀ (k : Nat) (rest : List Char),
      replPair '\\' y z (List.replicate k '\\' ++ '"' :: rest)
        = List.replicate k '\\' ++ '"' :: replPair '\\' y z rest := by
  intro k
  induction k with
  | zero =>
    intro rest
    simpa using replPair_cons_of_ne y z rest (by decide)
  | succ k ih =>
    intro rest
    have hhead : ∃ b t, List.replicate k '\\' ++ '"' :: rest = b :: t ∧ b ≠ y := by
      cases k with
      | zero => exact ⟨'"', rest, by simp, fun h => hy2 h.symm⟩
      | succ k2 =>
        exact ⟨'\\', List.replicate k2 '\\' ++ '"' :: rest, by simp [List.replicate_succ],
          fun h => hy1 h.symm⟩
    obtain ⟨b, t, hbt, hby⟩ := hhead
    rw [List.replicate_succ, List.cons_append, hbt, replPair_cons_of_ne2 '\\' z '\\' t hby,
      ← hbt, ih rest]
    simp [List.replicate_succ]

theorem replPair_quote_group :
    ∀ (k : Nat) (rest : List Char),
      replPair '\\' '"' '"' (List.replicate (k + 1) '\\' ++ '"' :: rest)
        = List.replicate k '\\' ++ '"' :: replPair '\\' '"' '"' rest := by
  intro k
  induction k with
  | zero =>
    intro rest
    simpa using replPair_hit '\\' '"' '"' rest
  | succ k ih =>
    intro rest
    have h2 : List.replicate (k + 2) '\\' ++ '"' :: rest
        = '\\' :: '\\' :: (List.replicate k '\\' ++ '"' :: rest) := by
      simp [List.replicate_succ]
    rw [h2, replPair_cons_of_ne2 '\\' '"' '\\' _ (by decide)]
    have h3 : '\\' :: (List.replicate k '\\' ++ '"' :: rest)
        = List.replicate (k + 1) '\\' ++ '"' :: rest := by
      simp [List.replicate_succ]
    rw [h3, ih rest]
    simp [List.replicate_succ]

/-- The backslash-quote pass turns the `k + 1` stage of the encoding into
the `k` stage. -/
theorem stage_quote {s : List Char} (hbs : '\\' ∉ s) (k : Nat) :
    replPair '\\' '"' '"' (quoteEnc (k + 1) s) = quoteEnc k s := by
  induction s with
  | nil => rfl
  | cons c t ih =>
    have hc : c ≠ '\\' := fun h => hbs (h ▸ List.mem_cons_self c t)
    have iht := ih fun h => hbs (List.mem_cons_of_mem c h)
    by_cases hq : c = '"'
    · subst hq
      rw [quoteEnc, if_pos rfl, List.append_assoc, List.singleton_append,
        replPair_quote_group k, iht, quoteEnc, if_pos rfl, List.append_assoc,
        List.singleton_append]
    · rw [quoteEnc, if_neg hq, List.singleton_append, replPair_cons_of_ne '"' '"' _ hc,
        iht, quoteEnc, if_neg hq, List.singleton_append]

/-- The backslash-n and backslash-t passes leave every stage of the
encoding unchanged. -/
theorem stage_other {s : List Char} {y : Char} (z : Char) (hbs : '\\' ∉ s)
    (hy1 : y ≠ '\\') (hy2 : y ≠ '"') (k : Nat) :
    replPair '\\' y z (quoteEnc k s) = quoteEnc k s := by
  induction s with
  | nil => rfl
  | cons c t ih =>
    have hc : c ≠ '\\' := fun h => hbs (h ▸ List.mem_cons_self c t)
    have iht := ih fun h => hbs (List.mem_cons_of_mem c h)
    by_cases hq : c = '"'
    · subst hq
      rw [quoteEnc, if_pos rfl, List.append_assoc, List.singleton_append,
        replPair_bs_y_group z hy1 hy2 k, iht]
    · rw [quoteEnc, if_neg hq, List.singleton_append, replPair_cons_of_ne y z _ hc, iht]

/-- The double-backslash pass turns the two-backslash stage into the
one-backslash stage. -/
theorem stage_bs {s : List Char} (hbs : '\\' ∉ s) :
    replPair '\\' '\\' '\\' (quoteEnc 2 s) = quoteEnc 1 s := by
  induction s with
  | nil => rfl
  | cons c t ih =>
    have hc : c ≠ '\\' := fun h => hbs (h ▸ List.mem_cons_self c t)
    have iht := ih fun h => hbs (List.mem_cons_of_mem c h)
    by_cases hq : c = '"'
    · subst hq
      have h2 : quoteEnc 2 ('"' :: t) = '\\' :: '\\' :: '"' :: quoteEnc 2 t := by
        rw [quoteEnc, if_pos rfl]; rfl
      rw [h2, replPair_hit, replPair_cons_of_ne '\\' '\\' _ (by decide), iht, quoteEnc,
        if_pos rfl]
      rfl
    · rw [quoteEnc, if_neg hq, List.singleton_append, replPair_cons_of_ne '\\' '\\' _ hc,
        iht, quoteEnc, if_neg hq, List.singleton_append]

/-- The backslash-u pass leaves the one-backslash stage unchanged. -/
theorem stage_unicode {s : List Char} (hbs : '\\' ∉ s) :
    replUnicode (quoteEnc 1 s) = quoteEnc 1 s := by
  induction s with
  | nil => rfl
  | cons c t ih =>
    have hc : c ≠ '\\' := fun h => hbs (h ▸ List.mem_cons_self c t)
    have iht := ih fun h => hbs (List.mem_cons_of_mem c h)
    by_cases hq : c = '"'
    · subst hq
      have h2 : quoteEnc 1 ('"' :: t) = '\\' :: '"' :: quoteEnc 1 t := by
        rw [quoteEnc, if_pos rfl]; rfl
      rw [h2, replUnicode_bs_cons_of_ne _ (by decide), replUnicode_cons_of_ne _ (by decide),
        iht]
    · rw [quoteEnc, if_neg hq, List.singleton_append, replUnicode_cons_of_ne _ hc, iht]

/-- Escaped-quote containment in the one-backslash stage detects exactly
the quotes of the original string. -/
theorem containsSeq_bsq_quoteEnc1 {s : List Char} (hbs : '\\' ∉ s) :
    containsSeq ['\\', '"'] (quoteEnc 1 s) = true ↔ '"' ∈ s := by
  induction s with
  | nil => simp [quoteEnc, containsSeq, startsWithSeq]
  | cons c t ih =>
    have hc : c ≠ '\\' := fun h => hbs (h ▸ List.mem_cons_self c t)
    have iht := ih fun h => hbs (List.mem_cons_of_mem c h)
    by_cases hq : c = '"'
    · subst hq
      have h2 : quoteEnc 1 ('"' :: t) = '\\' :: '"' :: quoteEnc 1 t := by
        rw [quoteEnc, if_pos rfl]; rfl
      rw [h2]
      constructor
      · intro _; exact List.mem_cons_self _ _
      · intro _
        rw [containsSeq_cons]
        simp [startsWithSeq]
    · rw [quoteEnc, if_neg hq, List.singleton_append, containsSeq_cons]
      have hsw : startsWithSeq ['\\', '"'] (c :: quoteEnc 1 t) = false := by
        rw [startsWithSeq]
        have : ('\\' == c) = false := by
          simp [beq_eq_false_iff_ne]
          exact fun h => hc h.symm
        simp [this]
      rw [hsw]
      simp only [Bool.false_or, iht, List.mem_cons]
      constructor
      · exact Or.inr
      · intro h
        rcases h with h | h
        · exact absurd h.symm hq
        · exact h

/-- Decoding a doubly escaped backslash-, newline- and tab-free string with
the double-unescape flag recovers the string exactly. -/
theorem decodePayload_doubleEscape {s : List Char}
    (hbs : '\\' ∉ s) (hnl : '\n' ∉ s) (htb : '\t' ∉ s) :
    decodePayload true (jsonEscapeStr (jsonEscapeStr s)) = s := by
  rw [decodePayload, doubleEscape_eq_quoteEnc3 hbs hnl htb]
  have h1 : rscUnescape1 (quoteEnc 3 s) = quoteEnc 1 s := by
    rw [rscUnescape1, stage_quote hbs 2, stage_other '\n' hbs (by decide) (by decide) 2,
      stage_other '\t' hbs (by decide) (by decide) 2, stage_bs hbs, stage_unicode hbs]
  simp only [h1, Bool.true_and]
  by_cases hq : '"' ∈ s
  · rw [if_pos ((containsSeq_bsq_quoteEnc1 hbs).mpr hq)]
    rw [rscUnescape2, stage_quote hbs 0, quoteEnc_zero,
      replPair_id_of_not_mem 'n' '\n' (fun c hc h => hbs (by rwa [h] at hc)),
      replPair_id_of_not_mem 't' '\t' (fun c hc h => hbs (by rwa [h] at hc)),
      replPair_id_of_not_mem '\\' '\\' (fun c hc h => hbs (by rwa [h] at hc))]
  · have : containsSeq ['\\', '"'] (quoteEnc 1 s) = false := by
      cases h : containsSeq ['\\', '"'] (quoteEnc 1 s) with
      | false => rfl
      | true => exact absurd ((containsSeq_bsq_quoteEnc1 hbs).mp h) hq
    rw [if_neg (by simp [this]), quoteEnc_id_of_no_quote hq]

/-! ## Scanner lemmas for the call-site regex model -/

theorem scanPushes_nil (du : Bool) (fuel : Nat) : scanPushes du fuel [] = [] := by
  cases fuel <;> rfl

theorem scanPushes_succ_cons (du : Bool) (fuel : Nat) (c : Char) (t : List Char) :
    scanPushes du (fuel + 1) (c :: t) =
      if startsWithSeq pushPrefix (c :: t) then
        match captureArg ((c :: t).drop 23) with
        | some (cap, rest) => decodePayload du cap :: scanPushes du fuel rest
        | none => scanPushes du fuel t
      else scanPushes du fuel t := rfl

theorem scanPushes_of_no_prefix {l : List Char} (du : Bool)
    (h : containsSeq pushPrefix l = false) : ∀ fuel, scanPushes du fuel l = [] := by
  induction l with
  | nil => intro fuel; exact scanPushes_nil du fuel
  | cons c t ih =>
    intro fuel
    cases fuel with
    | zero => rfl
    | succ fu =>
      have hsw := startsWithSeq_false_of_containsSeq_false h
      rw [scanPushes_succ_cons, hsw]
      simpa using ih (containsSeq_cons_false h) fu

theorem pushPrefix_length : pushPrefix.length = 23 := by decide

theorem scanPushes_through_filler {f : List Char} (rest : List Char) (du : Bool)
    (h : containsSeq pushPrefix (f ++ rest.take 22) = false) :
    ∀ fuel, f.length ≤ fuel →
      scanPushes du fuel (f ++ rest) = scanPushes du (fuel - f.length) rest := by
  induction f with
  | nil => intro fuel _; simp
  | cons c f2 ih =>
    intro fuel hfu
    cases fuel with
    | zero => simp at hfu
    | succ fu =>
      have hsw : startsWithSeq pushPrefix ((c :: f2) ++ rest) = false := by
        cases hx : startsWithSeq pushPrefix ((c :: f2) ++ rest) with
        | false => rfl
        | true =>
          exfalso
          have hp : pushPrefix <+: (c :: f2) ++ rest := (startsWithSeq_iff _ _).mp hx
          have hp2 : pushPrefix <+: (c :: f2) ++ rest.take 22 :=
            prefix_append_take hp (by simp [pushPrefix_length])
          have hsw2 : startsWithSeq pushPrefix ((c :: f2) ++ rest.take 22) = true :=
            (startsWithSeq_iff _ _).mpr hp2
          rw [List.cons_append] at hsw2 h
          rw [containsSeq_cons, hsw2] at h
          simp at h
      have hcf : containsSeq pushPrefix (f2 ++ rest.take 22) = false := by
        rw [List.cons_append] at h
        exact containsSeq_cons_false h
      have ih2 := ih hcf fu (by simpa using hfu)
      rw [List.cons_append, scanPushes_succ_cons, ← List.cons_append, hsw]
      simp only [Bool.false_eq_true, if_false]
      rw [ih2]
      congr 1
      simp only [List.length_cons]
      omega

theorem captureTail_clean {x : List Char} (rest : List Char)
    (hx : containsSeq closeMark x = false) :
    captureTail (x ++ (closeMark ++ rest)) = some (x, rest) := by
  induction x with
  | nil =>
    simp only [List.nil_append]
    rw [show closeMark ++ rest = '"' :: ']' :: ')' :: rest from rfl, captureTail,
      if_pos (by simp [closeMark, startsWithSeq])]
    rfl
  | cons c x2 ih =>
    have hsw : startsWithSeq closeMark (c :: (x2 ++ (closeMark ++ rest))) = false := by
      rcases x2 with _ | ⟨b, x3⟩
      · simp [closeMark, startsWithSeq]
      · rcases x3 with _ | ⟨b2, x4⟩
        · simp [closeMark, startsWithSeq]
        · have heq : startsWithSeq closeMark (c :: b :: b2 :: (x4 ++ (closeMark ++ rest)))
              = startsWithSeq closeMark (c :: b :: b2 :: x4) := by
            simp [closeMark, startsWithSeq]
          rw [List.cons_append, List.cons_append, heq]
          cases hy : startsWithSeq closeMark (c :: b :: b2 :: x4) with
          | false => rfl
          | true =>
            exfalso
            rw [containsSeq_cons, hy] at hx
            simp at hx
    rw [List.cons_append, captureTail, hsw]
    simp only [Bool.false_eq_true, if_false]
    rw [ih (containsSeq_cons_false hx)]

theorem captureArg_clean {x : List Char} (rest : List Char)
    (hne : x ≠ []) (hx : containsSeq closeMark x = false) :
    captureArg (x ++ (closeMark ++ rest)) = some (x, rest) := by
  cases x with
  | nil => exact absurd rfl hne
  | cons c x2 =>
    rw [List.cons_append, captureArg, captureTail_clean rest (containsSeq_cons_false hx)]

theorem scanPushes_fire {s2 : List Char} (rest : List Char) (du : Bool) (fuel : Nat)
    (hne : s2 ≠ []) (hcm : containsSeq closeMark s2 = false) :
    scanPushes du (fuel + 1) (pushPrefix ++ (s2 ++ (closeMark ++ rest)))
      = decodePayload du s2 :: scanPushes du fuel rest := by
  obtain ⟨c, t, hct⟩ : ∃ c t, pushPrefix ++ (s2 ++ (closeMark ++ rest)) = c :: t := by
    cases h : pushPrefix ++ (s2 ++ (closeMark ++ rest)) with
    | nil => simp [pushPrefix] at h
    | cons c t => exact ⟨c, t, rfl⟩
  have h1 : startsWithSeq pushPrefix (c :: t) = true := by
    rw [← hct]; exact startsWithSeq_append _ _
  have h2 : (c :: t).drop 23 = s2 ++ (closeMark ++ rest) := by
    rw [← hct, show (23 : Nat) = pushPrefix.length from rfl, List.drop_left]
  rw [hct, scanPushes_succ_cons, h1]
  simp only [if_true]
  rw [h2, captureArg_clean rest hne hcm]

/-- A terminator occurrence in the three-backslash encoding reflects to one
in the original string. -/
theorem containsSeq_closeMark_quoteEnc3 {s : List Char}
    (h : containsSeq closeMark (quoteEnc 3 s) = true) : containsSeq closeMark s = true := by
  induction s with
  | nil => simp [quoteEnc, containsSeq, startsWithSeq] at h
  | cons c t ih =>
    by_cases hq : c = '"'
    · subst hq
      have h3 : quoteEnc 3 ('"' :: t) = '\\' :: '\\' :: '\\' :: '"' :: quoteEnc 3 t := by
        rw [quoteEnc, if_pos rfl]; rfl
      rw [h3] at h
      simp only [containsSeq_cons, closeMark, startsWithSeq] at h
      simp only [show (('"' : Char) == '\\') = false by decide, Bool.false_and,
        Bool.false_or, show (('"' : Char) == '"') = true by decide, Bool.true_and] at h
      rcases Bool.or_eq_true_iff.mp h with hfst | hrest
      · rcases t with _ | ⟨d, t2⟩
        · simp [quoteEnc, startsWithSeq] at hfst
        · by_cases hd : d = '"'
          · subst hd
            have h4 : quoteEnc 3 ('"' :: t2) = '\\' :: '\\' :: '\\' :: '"' :: quoteEnc 3 t2 := by
              rw [quoteEnc, if_pos rfl]; rfl
            rw [h4] at hfst
            simp [startsWithSeq] at hfst
          · have h4 : quoteEnc 3 (d :: t2) = d :: quoteEnc 3 t2 := by
              rw [quoteEnc, if_neg hd]; rfl
            rw [h4] at hfst
            simp only [startsWithSeq, Bool.and_eq_true, beq_iff_eq] at hfst
            obtain ⟨hd2, hfst⟩ := hfst
            rcases t2 with _ | ⟨e, t3⟩
            · simp [quoteEnc, startsWithSeq] at hfst
            · by_cases he : e = '"'
              · subst he
                have h5 : quoteEnc 3 ('"' :: t3) = '\\' :: '\\' :: '\\' :: '"' :: quoteEnc 3 t3 := by
                  rw [quoteEnc, if_pos rfl]; rfl
                rw [h5] at hfst
                simp [startsWithSeq] at hfst
              · have h5 : quoteEnc 3 (e :: t3) = e :: quoteEnc 3 t3 := by
                  rw [quoteEnc, if_neg he]; rfl
                rw [h5] at hfst
                simp only [startsWithSeq, Bool.and_eq_true, beq_iff_eq] at hfst
                obtain ⟨he2, -⟩ := hfst
                subst hd2
                subst he2
                rw [containsSeq_cons]
                simp [closeMark, startsWithSeq]
      · have := ih hrest
        rw [containsSeq_cons, this]
        simp
    · have h3 : quoteEnc 3 (c :: t) = c :: quoteEnc 3 t := by
        rw [quoteEnc, if_neg hq]; rfl
      rw [h3, containsSeq_cons] at h
      have hsw : startsWithSeq closeMark (c :: quoteEnc 3 t) = false := by
        simp only [closeMark, startsWithSeq]
        have : (('"' : Char) == c) = false := by
          simp [beq_eq_false_iff_ne]
          exact fun hx => hq hx.symm
        simp [this]
      rw [hsw] at h
      simp only [Bool.false_or] at h
      have := ih h
      rw [containsSeq_cons, this]
      simp

/-- Claim C2 (amended): for a nonempty string without backslash, newline or
tab characters and without the three-character terminator sequence
quote-bracket-paren, embedding its doubly JSON-escaped form as the payload
push argument and extracting with doubleUnescape set recovers the original
string as the single payload.  The unrestricted claim is refuted by
C2_counterexample, which also shows the second unescape pass is not
identical to the first (it lacks the backslash-u step). -/
theorem C2_round_trip_amended (s : List Char)
    (hne : s ≠ []) (hbs : '\\' ∉ s) (hnl : '\n' ∉ s) (htb : '\t' ∉ s)
    (hcm : containsSeq closeMark s = false) :
    extractRSCPayloads (pushPrefix ++ (jsonEscapeStr (jsonEscapeStr s) ++ closeMark)) true
      = [s] := by
  have he2 : jsonEscapeStr (jsonEscapeStr s) = quoteEnc 3 s :=
    doubleEscape_eq_quoteEnc3 hbs hnl htb
  have hne2 : jsonEscapeStr (jsonEscapeStr s) ≠ [] := by
    rw [he2]; exact quoteEnc_ne_nil hne
  have hcm2 : containsSeq closeMark (jsonEscapeStr (jsonEscapeStr s)) = false := by
    rw [he2]
    cases hx : containsSeq closeMark (quoteEnc 3 s) with
    | false => rfl
    | true => rw [containsSeq_closeMark_quoteEnc3 hx] at hcm; exact hcm
  have hlen : (pushPrefix ++ (jsonEscapeStr (jsonEscapeStr s) ++ closeMark)).length
      = ((pushPrefix ++ (jsonEscapeStr (jsonEscapeStr s) ++ closeMark)).length - 1) + 1 := by
    simp [pushPrefix_length]
    omega
  rw [extractRSCPayloads, hlen]
  have hshape : pushPrefix ++ (jsonEscapeStr (jsonEscapeStr s) ++ closeMark)
      = pushPrefix ++ (jsonEscapeStr (jsonEscapeStr s) ++ (closeMark ++ [])) := by simp
  rw [hshape, scanPushes_fire [] true _ hne2 hcm2, scanPushes_nil,
    decodePayload_doubleEscape hbs hnl htb]

/-- Claim C2 counterexample: for the single-backslash string, decoding its
doubly escaped payload with the double-unescape flag yields a doubled
backslash rather than the original string, and the second unescape pass is
not identical to the first (it lacks the backslash-u step). -/
theorem C2_counterexample :
    extractRSCPayloads
        (pushPrefix ++ (jsonEscapeStr (jsonEscapeStr ['\\']) ++ closeMark)) true
      = [['\\', '\\']]
    ∧ extractRSCPayloads
        (pushPrefix ++ (jsonEscapeStr (jsonEscapeStr ['\\']) ++ closeMark)) true
      ≠ [['\\']]
    ∧ rscUnescape1 "\\u0041".data ≠ rscUnescape2 "\\u0041".data :=
  ⟨by decide, by decide, by decide⟩

/-- Claim C2 witness: the amended round trip at the concrete string
a-quote-b. -/
theorem C2_round_trip_witness :
    extractRSCPayloads
        (pushPrefix ++ (jsonEscapeStr (jsonEscapeStr ['a', '"', 'b']) ++ closeMark)) true
      = [['a', '"', 'b']] :=
  C2_round_trip_amended ['a', '"', 'b'] (by decide) (by decide) (by decide) (by decide)
    (by decide)

/-! ## Claims C7 and C9: call-site enumeration and the tag-1 requirement -/

theorem pushPrefix_eq : pushPrefix =
    ['s', 'e', 'l', 'f', '.', '_', '_', 'n', 'e', 'x', 't', '_', 'f', '.', 'p', 'u', 's',
     'h', '(', '[', '1', ',', '"'] := rfl

/-- HTML built from N call sites, each preceded by a filler and carrying a
payload argument, followed by a trailing filler. -/
def pushHtml : List (List Char × List Char) → List Char → List Char
  | [], ftail => ftail
  | (f, s) :: ps, ftail => f ++ (pushPrefix ++ (s ++ (closeMark ++ pushHtml ps ftail)))

theorem scanPushes_pushHtml (du : Bool) (ps : List (List Char × List Char))
    (ftail : List Char)
    (hf : ∀ pr ∈ ps, containsSeq pushPrefix (pr.1 ++ pushPrefix.take 22) = false)
    (hs : ∀ pr ∈ ps, pr.2 ≠ [] ∧ containsSeq closeMark pr.2 = false)
    (ht : containsSeq pushPrefix ftail = false) :
    ∀ fuel, (pushHtml ps ftail).length ≤ fuel →
      scanPushes du fuel (pushHtml ps ftail) = ps.map fun pr => decodePayload du pr.2 := by
  induction ps with
  | nil =>
    intro fuel _
    exact scanPushes_of_no_prefix du ht fuel
  | cons pr ps2 ih =>
    obtain ⟨f, s⟩ := pr
    intro fuel hfu
    have hrest22 : (pushPrefix ++ (s ++ (closeMark ++ pushHtml ps2 ftail))).take 22
        = pushPrefix.take 22 :=
      List.take_append_of_le_length (by rw [pushPrefix_length]; omega)
    have hfil : containsSeq pushPrefix
        (f ++ (pushPrefix ++ (s ++ (closeMark ++ pushHtml ps2 ftail))).take 22) = false := by
      rw [hrest22]
      exact (hf (f, s) (List.mem_cons_self _ _))
    have hlen : (pushHtml ((f, s) :: ps2) ftail).length
        = f.length + (23 + (s.length + (3 + (pushHtml ps2 ftail).length))) := by
      simp [pushHtml, pushPrefix_length, closeMark]
      omega
    rw [pushHtml, scanPushes_through_filler _ du hfil fuel (by omega)]
    obtain ⟨k, hk⟩ : ∃ k, fuel - f.length = k + 1 := ⟨fuel - f.length - 1, by omega⟩
    rw [hk, scanPushes_fire _ du k (hs (f, s) (List.mem_cons_self _ _)).1
      (hs (f, s) (List.mem_cons_self _ _)).2]
    rw [ih (fun q hq => hf q (List.mem_cons_of_mem _ hq))
      (fun q hq => hs q (List.mem_cons_of_mem _ hq)) k (by omega)]
    rfl

/-- Claim C7: HTML consisting of N valid payload push call sites (nonempty
argument without the terminator sequence) separated by fillers that do not
contain the call-site prefix yields exactly N payloads, in source order,
each the decoding of the corresponding call-site argument. -/
theorem C7_payloads_per_call_site (ps : List (List Char × List Char))
    (ftail : List Char) (du : Bool)
    (hf : ∀ pr ∈ ps, containsSeq pushPrefix (pr.1 ++ pushPrefix.take 22) = false)
    (hs : ∀ pr ∈ ps, pr.2 ≠ [] ∧ containsSeq closeMark pr.2 = false)
    (ht : containsSeq pushPrefix ftail = false) :
    extractRSCPayloads (pushHtml ps ftail) du
      = ps.map fun pr => decodePayload du pr.2 := by
  exact scanPushes_pushHtml du ps ftail hf hs ht _ le_rfl

/-- Claim C7 witness: two concrete call sites with fillers yield exactly
their two decoded payloads in order. -/
theorem C7_payloads_witness :
    extractRSCPayloads
      (pushHtml [("<html>".data, "alpha".data), ("<script>".data, "beta".data)]
        "</html>".data) true
      = ["alpha".data, "beta".data] :=
  C7_payloads_per_call_site
    [("<html>".data, "alpha".data), ("<script>".data, "beta".data)] "</html>".data true
    (by decide) (by decide) (by decide)

theorem beq_false_of_isDigit {a c : Char} (ha : a.isDigit = false)
    (h : c.isDigit = true) : (a == c) = false := by
  cases hx : (a == c) with
  | false => rfl
  | true =>
    have hac : a = c := beq_iff_eq.mp hx
    rw [← hac] at h
    rw [ha] at h
    exact absurd h (by simp)

theorem peel_call_head (z : List Char) :
    containsSeq pushPrefix ("self.__next_f.push([".data ++ z)
      = (startsWithSeq ['1', ',', '"'] z || containsSeq pushPrefix z) := by
  show containsSeq pushPrefix
      ('s' :: 'e' :: 'l' :: 'f' :: '.' :: '_' :: '_' :: 'n' :: 'e' :: 'x' :: 't' :: '_' ::
       'f' :: '.' :: 'p' :: 'u' :: 's' :: 'h' :: '(' :: '[' :: z)
      = (startsWithSeq ['1', ',', '"'] z || containsSeq pushPrefix z)
  simp [containsSeq, pushPrefix_eq, startsWithSeq]

theorem containsSeq_pushPrefix_digits {d : List Char} (w : List Char)
    (hd : ∀ c ∈ d, c.isDigit = true) :
    containsSeq pushPrefix (d ++ w) = containsSeq pushPrefix w := by
  induction d with
  | nil => rfl
  | cons c d2 ih =>
    rw [List.cons_append, containsSeq_cons]
    have h1 : startsWithSeq pushPrefix (c :: (d2 ++ w)) = false := by
      rw [pushPrefix_eq, startsWithSeq,
        beq_false_of_isDigit (by decide) (hd c (List.mem_cons_self c d2))]
      rfl
    rw [h1, ih fun e he => hd e (List.mem_cons_of_mem c he)]
    rfl

/-- Claim C9: a push call site whose numeric tag is a digit string other
than 1 contributes no payload: the extraction of the full call-site text
returns the empty list. -/
theorem C9_non_one_tag_ignored (d s : List Char) (du : Bool)
    (hd : ∀ c ∈ d, c.isDigit = true) (hd1 : d ≠ ['1'])
    (hs : containsSeq pushPrefix (s ++ closeMark) = false) :
    extractRSCPayloads
      ("self.__next_f.push([".data ++ (d ++ (',' :: '"' :: (s ++ closeMark)))) du = [] := by
  apply scanPushes_of_no_prefix
  rw [peel_call_head]
  have htag : startsWithSeq ['1', ',', '"'] (d ++ (',' :: '"' :: (s ++ closeMark))) = false := by
    rcases d with _ | ⟨c, d2⟩
    · simp [startsWithSeq]
    · rw [List.cons_append, startsWithSeq]
      by_cases hc : c = '1'
      · subst hc
        rcases d2 with _ | ⟨e, d3⟩
        · exact absurd rfl hd1
        · rw [List.cons_append, startsWithSeq,
            beq_false_of_isDigit (by decide) (hd e (List.mem_cons_of_mem _ (List.mem_cons_self e d3)))]
          simp
      · rw [show (('1' : Char) == c) = false by
          simp [beq_eq_false_iff_ne]; exact fun h => hc h.symm]
        rfl
  rw [htag]
  have hdig : containsSeq pushPrefix (d ++ (',' :: '"' :: (s ++ closeMark)))
      = containsSeq pushPrefix (',' :: '"' :: (s ++ closeMark)) :=
    containsSeq_pushPrefix_digits _ hd
  rw [hdig, containsSeq_cons, containsSeq_cons]
  rw [show startsWithSeq pushPrefix (',' :: '"' :: (s ++ closeMark)) = false by
    rw [pushPrefix_eq, startsWithSeq]; rfl]
  rw [show startsWithSeq pushPrefix ('"' :: (s ++ closeMark)) = false by
    rw [pushPrefix_eq, startsWithSeq]; rfl]
  rw [hs]
  rfl

/-- Claim C9 witness: a concrete tag-2 push call yields no payloads. -/
theorem C9_non_one_tag_witness :
    extractRSCPayloads
      ("self.__next_f.push([".data ++ ('2' :: [] ++ (',' :: '"' :: ("payload".data ++ closeMark))))
      true = [] :=
  C9_non_one_tag_ignored ['2'] "payload".data true (by decide) (by decide) (by decide)

/-! ## JSON value model

Model of a parsed JavaScript JSON value, shared by the JSON fragment
recoverer, the single-article extractor and the block renderer.  Numbers
are modelled as integers (the payloads the subsystem handles carry integer
and string data and the code does no arithmetic on them; fractional or
exponent number forms make the modelled parse fail).  Object member lists
are in insertion order with duplicate keys already resolved, as JSON.parse
produces them. -/

inductive Json where
  | null : Json
  | bool (b : Bool) : Json
  | num (n : Int) : Json
  | str (s : List Char) : Json
  | arr (elems : List Json) : Json
  | obj (members : List (List Char × Json)) : Json

mutual

/-- Structural equality test on JSON values, the model of the JavaScript
Set-membership comparison used for seen slugs (SameValueZero; for the
primitive values that occur as slugs the two agree). -/
def jsonBeq : Json → Json → Bool
  | .null, .null => true
  | .bool a, .bool b => a == b
  | .num a, .num b => a == b
  | .str a, .str b => a == b
  | .arr a, .arr b => jsonBeqList a b
  | .obj a, .obj b => jsonBeqKVs a b
  | _, _ => false

def jsonBeqList : List Json → List Json → Bool
  | [], [] => true
  | a :: as, b :: bs => jsonBeq a b && jsonBeqList as bs
  | _, _ => false

def jsonBeqKVs : List (List Char × Json) → List (List Char × Json) → Bool
  | [], [] => true
  | (k, v) :: as, (k2, v2) :: bs => k == k2 && jsonBeq v v2 && jsonBeqKVs as bs
  | _, _ => false

end

/-- Property lookup on an object member list: the first binding for the
key (the parser keeps one binding per key, so this is JavaScript property
access; a missing key is JavaScript undefined). -/
def objGet (kvs : List (List Char × Json)) (k : List Char) : Option Json :=
  match kvs with
  | [] => none
  | (k2, v) :: t => if k2 = k then some v else objGet t k

/-- JavaScript truthiness of a defined value. -/
def truthy : Json → Bool
  | .null => false
  | .bool b => b
  | .num n => n != 0
  | .str s => !s.isEmpty
  | .arr _ => true
  | .obj _ => true

/-- JavaScript truthiness of a possibly undefined value. -/
def truthyO : Option Json → Bool
  | none => false
  | some v => truthy v

mutual

/-- JavaScript string coercion of a value, as in a template literal:
strings stay, numbers print in decimal, null prints null, arrays join
their coerced elements with commas (null elements print empty), objects
print the object-Object placeholder. -/
def jsToString : Json → List Char
  | .null => "null".data
  | .bool b => if b then "true".data else "false".data
  | .num n => (toString n).data
  | .str s => s
  | .arr elems => jsToStringArr elems
  | .obj _ => "[object Object]".data

def jsToStringArr : List Json → List Char
  | [] => []
  | [v] => jsToStringElem v
  | v :: rest => jsToStringElem v ++ ',' :: jsToStringArr rest

def jsToStringElem : Json → List Char
  | .null => []
  | v => jsToString v

end

/-! ## Model of JSON.parse (strict JSON, integer numbers) -/

/-- JSON whitespace. -/
def isJsonWs (c : Char) : Bool :=
  c == ' ' || c == '\t' || c == '\n' || c == '\r'

/-- Drop leading JSON whitespace. -/
def skipJsonWs (l : List Char) : List Char := l.dropWhile isJsonWs

/-- Parse the body of a JSON string literal after its opening quote:
returns the decoded characters and the rest after the closing quote.
Control characters must be escaped; invalid escapes fail. -/
def parseStringBody : List Char → Option (List Char × List Char)
  | [] => none
  | '"' :: r => some ([], r)
  | '\\' :: e :: r =>
    match e with
    | '"' => (parseStringBody r).map fun p => ('"' :: p.1, p.2)
    | '\\' => (parseStringBody r).map fun p => ('\\' :: p.1, p.2)
    | '/' => (parseStringBody r).map fun p => ('/' :: p.1, p.2)
    | 'b' => (parseStringBody r).map fun p => ('\x08' :: p.1, p.2)
    | 'f' => (parseStringBody r).map fun p => ('\x0c' :: p.1, p.2)
    | 'n' => (parseStringBody r).map fun p => ('\n' :: p.1, p.2)
    | 'r' => (parseStringBody r).map fun p => ('\r' :: p.1, p.2)
    | 't' => (parseStringBody r).map fun p => ('\t' :: p.1, p.2)
    | 'u' =>
      match r with
      | a :: b :: c :: d :: r2 =>
        if isHexDigit a && isHexDigit b && isHexDigit c && isHexDigit d then
          (parseStringBody r2).map fun p => (Char.ofNat (hexNum4 a b c d) :: p.1, p.2)
        else none
      | _ => none
    | _ => none
  | c :: r =>
    if c.toNat < 32 then none
    else (parseStringBody r).map fun p => (c :: p.1, p.2)

/-- Digits of an unsigned decimal integer into its value. -/
def digitsVal (acc : Nat) : List Char → Nat
  | [] => acc
  | c :: t => digitsVal (acc * 10 + (c.toNat - 48)) t

/-- Parse an unsigned JSON integer: a single zero, or a nonzero digit
followed by digits; a following dot, exponent mark or digit making the
token a non-integer number fails (model restriction). -/
def parseNatPart : List Char → Option (Nat × List Char)
  | [] => none
  | c :: t =>
    if c = '0' then
      match t with
      | d :: _ =>
        if d.isDigit || d == '.' || d == 'e' || d == 'E' then none else some (0, t)
      | [] => some (0, t)
    else if c.isDigit then
      let ds := t.takeWhile Char.isDigit
      let rest := t.dropWhile Char.isDigit
      match rest with
      | d :: _ => if d == '.' || d == 'e' || d == 'E' then none
                  else some (digitsVal (c.toNat - 48) ds, rest)
      | [] => some (digitsVal (c.toNat - 48) ds, rest)
    else none

/-- Parse a JSON number token (integer forms only). -/
def parseNumberTok : List Char → Option (Json × List Char)
  | '-' :: t => (parseNatPart t).map fun p => (Json.num (-(p.1 : Int)), p.2)
  | l => (parseNatPart l).map fun p => (Json.num (p.1 : Int), p.2)

/-- Insert one object member, overwriting an earlier binding of the same
key in place, as repeated keys behave under JSON.parse. -/
def insertMember (kvs : List (List Char × Json)) (k : List Char) (v : Json) :
    List (List Char × Json) :=
  match kvs with
  | [] => [(k, v)]
  | (k2, v2) :: t => if k2 = k then (k, v) :: t else (k2, v2) :: insertMember t k v

mutual

/-- Parse one JSON value (after the fuel-indexed descent of nesting). -/
def parseValue : Nat → List Char → Option (Json × List Char)
  | 0, _ => none
  | fuel + 1, l =>
    match skipJsonWs l with
    | '\x7b' :: t =>
      match skipJsonWs t with
      | '\x7d' :: r => some (Json.obj [], r)
      | t2 => parseMembers fuel t2 []
    | '[' :: t =>
      match skipJsonWs t with
      | ']' :: r => some (Json.arr [], r)
      | t2 => parseElems fuel t2 []
    | '"' :: t => (parseStringBody t).map fun p => (Json.str p.1, p.2)
    | 't' :: 'r' :: 'u' :: 'e' :: r => some (Json.bool true, r)
    | 'f' :: 'a' :: 'l' :: 's' :: 'e' :: r => some (Json.bool false, r)
    | 'n' :: 'u' :: 'l' :: 'l' :: r => some (Json.null, r)
    | t => parseNumberTok t

/-- Parse object members from the first key (no leading brace or
whitespace), accumulating into `acc`. -/
def parseMembers (fuel : Nat) (l : List Char) (acc : List (List Char × Json)) :
    Option (Json × List Char) :=
  match fuel with
  | 0 => none
  | fuel + 1 =>
    match l with
    | '"' :: t =>
      match parseStringBody t with
      | none => none
      | some (k, r) =>
        match skipJsonWs r with
        | ':' :: r2 =>
          match parseValue fuel r2 with
          | none => none
          | some (v, r3) =>
            match skipJsonWs r3 with
            | ',' :: r4 => parseMembers fuel (skipJsonWs r4) (insertMember acc k v)
            | '\x7d' :: r4 => some (Json.obj (insertMember acc k v), r4)
            | _ => none
        | _ => none
    | _ => none

/-- Parse array elements (no leading bracket or whitespace), accumulating
into `acc`. -/
def parseElems (fuel : Nat) (l : List Char) (acc : List Json) :
    Option (Json × List Char) :=
  match fuel with
  | 0 => none
  | fuel + 1 =>
    match parseValue fuel l with
    | none => none
    | some (v, r) =>
      match skipJsonWs r with
      | ',' :: r2 => parseElems fuel r2 (acc ++ [v])
      | ']' :: r2 => some (Json.arr (acc ++ [v]), r2)
      | _ => none

end

/-- Model of JSON.parse: parse one value and require only whitespace to
remain. -/
def jsonParse (l : List Char) : Option Json :=
  match parseValue (l.length + 1) l with
  | none => none
  | some (v, r) => if skipJsonWs r = [] then some v else none

/-! ## JSON Fragment Recoverer (extractArticlesFromJson / walkJsonForArticles,
server.js lines 1098-1174) -/

/-- An article stub as pushed by walkJsonForArticles (lines 1158-1164).
Field values are the JavaScript values read from the object; url is the
interpolated string. -/
structure Stub where
  title : Json
  slug : Json
  publishedOn : Json
  summary : Json
  url : List Char

/-- Resolved slug of a candidate article object (line 1155): an object
slug reads its current member (undefined when absent); an array also has
typeof object and no current member; any other truthy value is itself.
(A null slug never reaches this resolution: it is falsy and filtered by
the guard on line 1154.) -/
def resolveSlug : Json → Option Json
  | .obj kvs => objGet kvs "current".data
  | .arr _ => none
  | .null => none
  | v => some v

/-- First truthy of two optional values, defaulting to the empty string:
the JavaScript a-or-b-or-empty pattern of lines 1161-1162. -/
def firstTruthy (a b : Option Json) : Json :=
  if truthyO a then a.getD Json.null
  else if truthyO b then b.getD Json.null
  else Json.str []

/-- Candidate stub of one object, if it is article-shaped with a truthy
resolved slug (lines 1153-1165), before seen-slug deduplication. -/
def stubOf (kvs : List (List Char × Json)) (baseUrl basePath : List Char) : Option Stub :=
  let title := objGet kvs "title".data
  let slugF := objGet kvs "slug".data
  if truthyO title && truthyO slugF then
    match slugF.bind resolveSlug with
    | some slugV =>
      if truthy slugV then
        some { title := title.getD Json.null
               slug := slugV
               publishedOn := firstTruthy (objGet kvs "publishedOn".data) (objGet kvs "date".data)
               summary := firstTruthy (objGet kvs "summary".data) (objGet kvs "description".data)
               url := baseUrl ++ basePath ++ '/' :: jsToString slugV }
      else none
    | none => none
  else none

/-- Seen-set membership for resolved slug values. -/
def seenHas (seen : List Json) (v : Json) : Bool := seen.any fun x => jsonBeq x v

/-- A value is walked into only when it is a truthy object in the
JavaScript sense (line 1170): an array or an object. -/
def isObjLike : Json → Bool
  | .arr _ => true
  | .obj _ => true
  | _ => false

mutual

/-- Model of walkJsonForArticles (lines 1143-1174): depth-first walk over
a parsed value, emitting one stub per first-seen resolved slug; returns
the stubs in traversal order and the updated seen list. -/
def walkJson (baseUrl basePath : List Char) : Json → List Json → List Stub × List Json
  | .arr elems, seen => walkJsonList baseUrl basePath elems seen
  | .obj kvs, seen =>
    let own : List Stub × List Json :=
      match stubOf kvs baseUrl basePath with
      | some st => if seenHas seen st.slug then ([], seen) else ([st], seen ++ [st.slug])
      | none => ([], seen)
    let rest := walkJsonKVs baseUrl basePath kvs own.2
    (own.1 ++ rest.1, rest.2)
  | _, seen => ([], seen)

def walkJsonList (baseUrl basePath : List Char) :
    List Json → List Json → List Stub × List Json
  | [], seen => ([], seen)
  | v :: t, seen =>
    let r1 := walkJson baseUrl basePath v seen
    let r2 := walkJsonList baseUrl basePath t r1.2
    (r1.1 ++ r2.1, r2.2)

def walkJsonKVs (baseUrl basePath : List Char) :
    List (List Char × Json) → List Json → List Stub × List Json
  | [], seen => ([], seen)
  | (_, v) :: t, seen =>
    if isObjLike v then
      let r1 := walkJson baseUrl basePath v seen
      let r2 := walkJsonKVs baseUrl basePath t r1.2
      (r1.1 ++ r2.1, r2.2)
    else walkJsonKVs baseUrl basePath t seen

end

/-- Bracket scan of extractArticlesFromJson (lines 1114-1126): counts only
brackets of the opener's kind, with no string awareness, runs for at most
`fuel` characters (100000 at the call site), and returns the number of
characters consumed through the matching close bracket. -/
def naiveClose (openC closeC : Char) : List Char → Int → Nat → Nat → Option Nat
  | [], _, _, _ => none
  | c :: rest, depth, consumed, fuel =>
    match fuel with
    | 0 => none
    | fuel + 1 =>
      let d := if c = openC then depth + 1 else if c = closeC then depth - 1 else depth
      if d = 0 then some (consumed + 1)
      else naiveClose openC closeC rest d (consumed + 1) fuel

/-- State threaded through the candidate-start loop of
extractArticlesFromJson: successfully parsed ranges, stubs, seen slugs. -/
structure ExtState where
  ranges : List (Nat × Nat)
  stubs : List Stub
  seen : List Json

/-- Candidate JSON start indices (lines 1100-1105): every open brace or
open bracket. -/
def jsonStartIndices (data : List Char) : List Nat :=
  (List.range data.length).filter fun i =>
    (data.getD i ' ' == '[') || (data.getD i ' ' == '\x7b')

/-- One iteration of the candidate-start loop (lines 1109-1137). -/
def extractStep (data baseUrl basePath : List Char) (st : ExtState) (start : Nat) : ExtState :=
  if st.ranges.any fun r => decide (r.1 ≤ start) && decide (start < r.2) then st
  else
    let bracket := data.getD start ' '
    let closeB := if bracket = '[' then ']' else '\x7d'
    match naiveClose bracket closeB (data.drop start) 0 0 100000 with
    | none => st
    | some k =>
      match jsonParse ((data.drop start).take k) with
      | none => st
      | some v =>
        let w := walkJson baseUrl basePath v st.seen
        ⟨st.ranges ++ [(start, start + k)], st.stubs ++ w.1, w.2⟩

/-- Model of extractArticlesFromJson (lines 1098-1138). -/
def extractArticlesFromJson (data baseUrl basePath : List Char) : List Stub :=
  ((jsonStartIndices data).foldl (extractStep data baseUrl basePath) ⟨[], [], []⟩).stubs

/-! ## Specification-side description of the walk (for claim C3) -/

mutual

/-- Specification-side depth-first enumeration of every article-shaped
object of a value, in walk order, without deduplication. -/
def dfsStubs (baseUrl basePath : List Char) : Json → List Stub
  | .arr elems => dfsStubsList baseUrl basePath elems
  | .obj kvs =>
    (match stubOf kvs baseUrl basePath with
     | some st => [st]
     | none => []) ++ dfsStubsKVs baseUrl basePath kvs
  | _ => []

def dfsStubsList (baseUrl basePath : List Char) : List Json → List Stub
  | [] => []
  | v :: t => dfsStubs baseUrl basePath v ++ dfsStubsList baseUrl basePath t

def dfsStubsKVs (baseUrl basePath : List Char) : List (List Char × Json) → List Stub
  | [] => []
  | (_, v) :: t =>
    (if isObjLike v then dfsStubs baseUrl basePath v else [])
      ++ dfsStubsKVs baseUrl basePath t

end

/-- Specification-side first-occurrence deduplication by resolved slug
against a seen list: keeps the first stub of each slug, extends the seen
list in order. -/
def dedupStubs : List Stub → List Json → List Stub × List Json
  | [], seen => ([], seen)
  | st :: rest, seen =>
    if seenHas seen st.slug then dedupStubs rest seen
    else
      let r := dedupStubs rest (seen ++ [st.slug])
      (st :: r.1, r.2)

theorem dedupStubs_append (a b : List Stub) (seen : List Json) :
    dedupStubs (a ++ b) seen
      = ((dedupStubs a seen).1 ++ (dedupStubs b (dedupStubs a seen).2).1,
         (dedupStubs b (dedupStubs a seen).2).2) := by
  induction a generalizing seen with
  | nil => simp [dedupStubs]
  | cons st rest ih =>
    rw [List.cons_append, dedupStubs]
    by_cases h : seenHas seen st.slug = true
    · rw [if_pos h, dedupStubs, if_pos h, ih]
    · rw [if_neg h, dedupStubs, if_neg h]
      simp only [ih]
      simp

/-- The walk equals depth-first enumeration followed by first-occurrence
slug deduplication, for all three mutual walkers at once. -/
theorem walk_eq_dedup_dfs (baseUrl basePath : List Char) :
    (∀ v seen, walkJson baseUrl basePath v seen
        = dedupStubs (dfsStubs baseUrl basePath v) seen)
      ∧ (∀ kvs seen, walkJsonKVs baseUrl basePath kvs seen
          = dedupStubs (dfsStubsKVs baseUrl basePath kvs) seen)
      ∧ (∀ l seen, walkJsonList baseUrl basePath l seen
          = dedupStubs (dfsStubsList baseUrl basePath l) seen) := by
  refine walkJson.mutual_induct baseUrl basePath
    (fun v seen => walkJson baseUrl basePath v seen
      = dedupStubs (dfsStubs baseUrl basePath v) seen)
    (fun kvs seen => walkJsonKVs baseUrl basePath kvs seen
      = dedupStubs (dfsStubsKVs baseUrl basePath kvs) seen)
    (fun l seen => walkJsonList baseUrl basePath l seen
      = dedupStubs (dfsStubsList baseUrl basePath l) seen)
    ?harr ?hobj ?hother ?hlnil ?hlcons ?hknil ?hkobj ?hkskip
  case harr =>
    intro elems seen ih
    rw [walkJson, dfsStubs]
    exact ih
  case hobj =>
    intro kvs seen
    intro own ih
    rw [walkJson, dfsStubs, dedupStubs_append]
    have hown : dedupStubs
        (match stubOf kvs baseUrl basePath with
         | some st => [st]
         | none => []) seen = own := by
      show _ = (match stubOf kvs baseUrl basePath with
        | some st => if seenHas seen st.slug = true then ([], seen) else ([st], seen ++ [st.slug])
        | none => ([], seen))
      cases hst : stubOf kvs baseUrl basePath with
      | none => simp [dedupStubs]
      | some st =>
        by_cases hs : seenHas seen st.slug = true
        · simp [dedupStubs, hs]
        · simp [dedupStubs, hs]
    rw [hown, ih]
  case hother =>
    intro t seen hna hno
    cases t with
    | null => simp [walkJson, dfsStubs, dedupStubs]
    | bool b => simp [walkJson, dfsStubs, dedupStubs]
    | num n => simp [walkJson, dfsStubs, dedupStubs]
    | str s => simp [walkJson, dfsStubs, dedupStubs]
    | arr elems => exact absurd rfl (hna elems)
    | obj kvs => exact absurd rfl (hno kvs)
  case hlnil =>
    intro seen
    rw [walkJsonList, dfsStubsList, dedupStubs]
  case hlcons =>
    intro v t seen r1 ih1 ih2
    rw [walkJsonList, dfsStubsList, dedupStubs_append, ← ih1, ih2]
  case hknil =>
    intro seen
    rw [walkJsonKVs, dfsStubsKVs, dedupStubs]
  case hkobj =>
    intro k v t seen hobj r1 ih1 ih2
    have ih2b : walkJsonKVs baseUrl basePath t (walkJson baseUrl basePath v seen).2
        = dedupStubs (dfsStubsKVs baseUrl basePath t)
            (walkJson baseUrl basePath v seen).2 := ih2
    rw [walkJsonKVs, dfsStubsKVs, if_pos hobj, if_pos hobj, dedupStubs_append, ← ih1]
    rw [← ih2b]
  case hkskip =>
    intro k v t seen hobj ih
    rw [walkJsonKVs, dfsStubsKVs, if_neg hobj, if_neg hobj, List.nil_append, ih]

/-- A stub produced by stubOf has a truthy slug and carries the
interpolated url. -/
theorem stubOf_props {kvs : List (List Char × Json)} {b p : List Char} {st : Stub}
    (h : stubOf kvs b p = some st) :
    truthy st.slug = true ∧ st.url = b ++ p ++ '/' :: jsToString st.slug := by
  simp only [stubOf] at h
  split at h
  · split at h
    · rename_i slugV heq
      split at h
      · rename_i htr
        rw [Option.some.injEq] at h
        subst h
        exact ⟨htr, rfl⟩
      · simp at h
    · simp at h
  · simp at h

/-- Every stub of the depth-first enumeration has a truthy slug and the
interpolated url. -/
theorem dfsStubs_props (b p : List Char) :
    (∀ v, ∀ st ∈ dfsStubs b p v,
        truthy st.slug = true ∧ st.url = b ++ p ++ '/' :: jsToString st.slug)
      ∧ (∀ kvs, ∀ st ∈ dfsStubsKVs b p kvs,
          truthy st.slug = true ∧ st.url = b ++ p ++ '/' :: jsToString st.slug)
      ∧ (∀ l, ∀ st ∈ dfsStubsList b p l,
          truthy st.slug = true ∧ st.url = b ++ p ++ '/' :: jsToString st.slug) := by
  refine dfsStubs.mutual_induct b p
    (fun v => ∀ st ∈ dfsStubs b p v,
      truthy st.slug = true ∧ st.url = b ++ p ++ '/' :: jsToString st.slug)
    (fun kvs => ∀ st ∈ dfsStubsKVs b p kvs,
      truthy st.slug = true ∧ st.url = b ++ p ++ '/' :: jsToString st.slug)
    (fun l => ∀ st ∈ dfsStubsList b p l,
      truthy st.slug = true ∧ st.url = b ++ p ++ '/' :: jsToString st.slug)
    ?_ ?_ ?_ ?_ ?_ ?_ ?_
  · intro elems ih
    rw [dfsStubs]
    exact ih
  · intro kvs ih st hst
    rw [dfsStubs] at hst
    rcases List.mem_append.mp hst with hmem | hmem
    · revert hmem
      cases hso : stubOf kvs b p with
      | none => intro hmem; simp at hmem
      | some st2 =>
        intro hmem
        simp only [List.mem_singleton] at hmem
        subst hmem
        exact stubOf_props hso
    · exact ih st hmem
  · intro t hna hno st hst
    cases t with
    | null => simp [dfsStubs] at hst
    | bool b2 => simp [dfsStubs] at hst
    | num n => simp [dfsStubs] at hst
    | str s => simp [dfsStubs] at hst
    | arr elems => exact absurd rfl (hna elems)
    | obj kvs => exact absurd rfl (hno kvs)
  · intro st hst
    simp [dfsStubsList] at hst
  · intro v t ih1 ih2 st hst
    rw [dfsStubsList] at hst
    rcases List.mem_append.mp hst with hmem | hmem
    · exact ih1 st hmem
    · exact ih2 st hmem
  · intro st hst
    simp [dfsStubsKVs] at hst
  · intro k v t ih1 ih2 st hst
    rw [dfsStubsKVs] at hst
    by_cases hobj : isObjLike v = true
    · rw [if_pos hobj] at hst
      rcases List.mem_append.mp hst with hmem | hmem
      · exact ih1 st hmem
      · exact ih2 st hmem
    · rw [if_neg hobj, List.nil_append] at hst
      exact ih2 st hst

/-- A stub surviving deduplication came from the input list. -/
theorem dedupStubs_subset {l : List Stub} {seen : List Json} {st : Stub}
    (h : st ∈ (dedupStubs l seen).1) : st ∈ l := by
  induction l generalizing seen with
  | nil => simp [dedupStubs] at h
  | cons st2 rest ih =>
    rw [dedupStubs] at h
    by_cases hs : seenHas seen st2.slug = true
    · rw [if_pos hs] at h
      exact List.mem_cons_of_mem st2 (ih h)
    · rw [if_neg hs] at h
      simp only [List.mem_cons] at h ⊢
      rcases h with h | h
      · exact Or.inl h
      · exact Or.inr (ih h)

/-- Seen-membership after appending one slug splits into the old check and
the new slug comparison. -/
theorem seenHas_append_one (seen : List Json) (x y : Json) :
    seenHas (seen ++ [x]) y = (seenHas seen y || jsonBeq x y) := by
  simp [seenHas]

/-- Stubs surviving deduplication have slugs outside the initial seen
list. -/
theorem dedupStubs_out_not_seen :
    ∀ (l : List Stub) (seen : List Json) (st : Stub),
      st ∈ (dedupStubs l seen).1 → seenHas seen st.slug = false := by
  intro l
  induction l with
  | nil => intro seen st h; simp [dedupStubs] at h
  | cons st2 rest ih =>
    intro seen st h
    rw [dedupStubs] at h
    by_cases hs : seenHas seen st2.slug = true
    · rw [if_pos hs] at h
      exact ih seen st h
    · rw [if_neg hs] at h
      simp only [List.mem_cons] at h
      rcases h with rfl | h
      · simpa using hs
      · have h2 := ih (seen ++ [st2.slug]) st h
        rw [seenHas_append_one] at h2
        exact (Bool.or_eq_false_iff.mp h2).1

/-- Deduplicated stubs have pairwise distinct slugs. -/
theorem dedupStubs_pairwise :
    ∀ (l : List Stub) (seen : List Json),
      List.Pairwise (fun a b => jsonBeq a.slug b.slug = false) (dedupStubs l seen).1 := by
  intro l
  induction l with
  | nil => intro seen; simp [dedupStubs]
  | cons st2 rest ih =>
    intro seen
    rw [dedupStubs]
    by_cases hs : seenHas seen st2.slug = true
    · rw [if_pos hs]
      exact ih seen
    · rw [if_neg hs]
      refine List.Pairwise.cons ?_ (ih (seen ++ [st2.slug]))
      intro st' hst'
      have h2 := dedupStubs_out_not_seen rest (seen ++ [st2.slug]) st' hst'
      rw [seenHas_append_one] at h2
      exact (Bool.or_eq_false_iff.mp h2).2

/-- Site base url of parseAnthropicArticles (line 608). -/
def anthropicBase : List Char := "https://www.anthropic.com".data

/-- The stubs surviving deduplication of a nonempty list against an empty
seen list form a nonempty list: the first stub always survives. -/
theorem dedupStubs_ne_nil (l : List Stub) (h : l ≠ []) : (dedupStubs l []).1 ≠ [] := by
  cases l with
  | nil => exact absurd rfl h
  | cons st rest =>
    rw [dedupStubs]
    have hs : seenHas [] st.slug = false := rfl
    rw [hs]
    simp

/-! ## Claim C1: the candidate-close bracket scan of extractArticlesFromJson -/

/-- States of the specification's string-aware scanner (design note of the
spec: normal, in-string, escaped-in-string). -/
inductive ScanState where
  | normal : ScanState
  | inString : ScanState
  | escaped : ScanState

/-- Modelled from the spec: string-aware depth counting (quotes and escape
sequences inside strings must not affect bracket depth), as a three-state
machine; the reference against which the code's scan is compared.  Returns
the number of characters consumed through the matching close bracket. -/
def specAwareClose (openC closeC : Char) : List Char → Int → ScanState → Nat → Option Nat
  | [], _, _, _ => none
  | c :: rest, depth, st, consumed =>
    match st with
    | .escaped => specAwareClose openC closeC rest depth .inString (consumed + 1)
    | .inString =>
      if c = '\\' then specAwareClose openC closeC rest depth .escaped (consumed + 1)
      else if c = '"' then specAwareClose openC closeC rest depth .normal (consumed + 1)
      else specAwareClose openC closeC rest depth .inString (consumed + 1)
    | .normal =>
      if c = '"' then specAwareClose openC closeC rest depth .inString (consumed + 1)
      else
        let d := if c = openC then depth + 1 else if c = closeC then depth - 1 else depth
        if d = 0 then some (consumed + 1)
        else specAwareClose openC closeC rest d .normal (consumed + 1)

/-- Claim C1 counterexample: on an object whose title string contains a
close brace, the code's scan (naiveClose) selects the close bracket inside
the quoted string (12 characters in), while the string-aware reference
scan selects the true object end (25 characters in): a bracket inside a
quoted string changes which closing bracket is selected. -/
theorem C1_counterexample :
    naiveClose '\x7b' '\x7d'
        "\x7b\"title\":\"T\x7d\",\"slug\":\"s\"\x7d".data 0 0 100000 = some 12
    ∧ specAwareClose '\x7b' '\x7d'
        "\x7b\"title\":\"T\x7d\",\"slug\":\"s\"\x7d".data 0 ScanState.normal 0 = some 25
    ∧ naiveClose '\x7b' '\x7d'
        "\x7b\"title\":\"TX\",\"slug\":\"s\"\x7d".data 0 0 100000 = some 25 :=
  ⟨rfl, rfl, rfl⟩

/-- Claim C1 (amended): the bracket scan of extractArticlesFromJson counts
only brackets of the opener's kind with no string awareness, so a bracket
inside a quoted string does change which closing bracket is selected (the
truncated fragment then fails to parse and the candidate start is skipped
rather than crashing); the scan is bounded to 100,000 characters ahead of
the candidate start. -/
theorem C1_bracket_scan_amended :
    (∀ (o c : Char) (l : List Char) (depth : Int) (consumed fuel k : Nat),
        naiveClose o c l depth consumed fuel = some k → k ≤ consumed + fuel)
    ∧ naiveClose '\x7b' '\x7d'
        "\x7b\"title\":\"T\x7d\",\"slug\":\"s\"\x7d".data 0 0 100000 = some 12
    ∧ jsonParse ("\x7b\"title\":\"T\x7d\",\"slug\":\"s\"\x7d".data.take 12) = none
    ∧ extractArticlesFromJson "\x7b\"title\":\"T\x7d\",\"slug\":\"s\"\x7d".data
        anthropicBase "/engineering".data = [] := by
  refine ⟨?_, rfl, rfl, rfl⟩
  intro o c l
  induction l with
  | nil => intro depth consumed fuel k h; simp [naiveClose] at h
  | cons x rest ih =>
    intro depth consumed fuel k h
    rw [naiveClose.eq_def] at h
    cases fuel with
    | zero => simp at h
    | succ fu =>
      simp only at h
      repeat' split at h
      all_goals
        first
          | (rw [Option.some.injEq] at h; omega)
          | (have hr := ih _ _ _ _ h; omega)

/-! ## Rich-text body extraction (extractSanityBlocks, server.js lines 744-785) -/

/-- String-aware bracket matcher of extractSanityBlocks (lines 758-767):
an escape flag consumes the next character outright, quotes toggle the
in-string flag, characters inside strings are skipped, and only square
brackets outside strings change the depth.  Returns the number of
characters consumed through the matching close bracket. -/
def awareClose : List Char → Int → Bool → Bool → Nat → Option Nat
  | [], _, _, _, _ => none
  | c :: rest, depth, inStr, esc, consumed =>
    if esc then awareClose rest depth inStr false (consumed + 1)
    else if c = '\\' then awareClose rest depth inStr true (consumed + 1)
    else if c = '"' then awareClose rest depth (!inStr) esc (consumed + 1)
    else if inStr then awareClose rest depth inStr esc (consumed + 1)
    else if c = '[' then awareClose rest (depth + 1) inStr esc (consumed + 1)
    else if c = ']' then
      if depth - 1 = 0 then some (consumed + 1)
      else awareClose rest (depth - 1) inStr esc (consumed + 1)
    else awareClose rest depth inStr esc (consumed + 1)

/-- One global pass replacing the two-character sequence `x y` by the two
characters `z1 z2` (left-to-right, non-overlapping), as one regex replace
of line 775. -/
def replPairTwo (x y z1 z2 : Char) : List Char → List Char
  | [] => []
  | [c] => [c]
  | a :: b :: t =>
    if a = x ∧ b = y then z1 :: z2 :: replPairTwo x y z1 z2 t
    else a :: replPairTwo x y z1 z2 (b :: t)

/-- Escape repair of line 775: a backslash followed by a literal newline
becomes backslash-n, then a backslash followed by a literal tab becomes
backslash-t. -/
def repairBodyStr (l : List Char) : List Char :=
  replPairTwo '\\' '\t' '\\' 't' (replPairTwo '\\' '\n' '\\' 'n' l)

/-- The body-array key searched for on line 751. -/
def bodyKey : List Char := "\"body\":[".data

/-- First index at or after `start` holding character `c`, the model of
indexOf with a start position. -/
def indexOfCharFrom (data : List Char) (c : Char) (start : Nat) : Option Nat :=
  match (data.drop start).findIdx? (· == c) with
  | none => none
  | some i => some (start + i)

/-- Locate and capture the body-array substring (lines 751-771): the first
occurrence of the body key, the first open bracket from there, then the
string-aware close; `none` when the key is absent or the array unclosed. -/
def captureBody (data : List Char) : Option (List Char) :=
  match indexOfSeq bodyKey data with
  | none => none
  | some bodyIdx =>
    match indexOfCharFrom data '[' bodyIdx with
    | none => none
    | some arrayStart =>
      match awareClose (data.drop arrayStart) 0 false false 0 with
      | none => none
      | some k => some ((data.drop arrayStart).take k)

/-- Acceptance gate of lines 776-779: the parsed value contributes its
elements only when it is a nonempty array whose first element is an object
with a truthy _type member. -/
def sanityGate : Json → List Json
  | .arr (b :: bs) =>
    match b with
    | .obj kvs => if truthyO (objGet kvs "_type".data) then Json.obj kvs :: bs else []
    | _ => []
  | _ => []

/-- Model of extractSanityBlocks (lines 744-785). -/
def extractSanityBlocks (data : List Char) : List Json :=
  match captureBody data with
  | none => []
  | some bodyStr =>
    match jsonParse (repairBodyStr bodyStr) with
    | none => []
    | some parsed => sanityGate parsed

/-- Claim C6: extractSanityBlocks locates the array after the first
occurrence of the body key by string-aware bracket matching (a bracket
inside a quoted string value does not end the array, demonstrated
concretely), rewrites backslash-newline to backslash-n and backslash-tab
to backslash-t before parsing (demonstrated concretely on a body that only
parses after the repair), and returns the empty list when no body array is
found or the repaired substring fails to parse. -/
theorem C6_extract_body_blocks :
    (∀ data, indexOfSeq bodyKey data = none → extractSanityBlocks data = [])
    ∧ (∀ data s, captureBody data = some s → jsonParse (repairBodyStr s) = none →
        extractSanityBlocks data = [])
    ∧ extractSanityBlocks "\"body\":[\x7b\"_type\":\"block\",\"x\":\"][\"\x7d]".data
        = [Json.obj [("_type".data, Json.str "block".data), ("x".data, Json.str "][".data)]]
    ∧ extractSanityBlocks
        ("\"body\":[\x7b\"_type\":\"b\",\"code\":\"a\\".data ++ '\n' :: "b\"\x7d]".data)
        = [Json.obj [("_type".data, Json.str "b".data), ("code".data, Json.str ['a', '\n', 'b'])]]
    ∧ repairBodyStr ("ab\\".data ++ '\n' :: "c\\".data ++ ['\t'])
        = "ab\\nc\\t".data := by
  refine ⟨?_, ?_, rfl, rfl, rfl⟩
  · intro data h
    rw [extractSanityBlocks, captureBody, h]
  · intro data s h1 h2
    rw [extractSanityBlocks, h1]
    show (match jsonParse (repairBodyStr s) with
      | none => ([] : List Json)
      | some parsed => sanityGate parsed) = []
    rw [h2]

/-- Claim C10: whenever the captured and repaired body substring parses,
the result is empty unless the parsed value is a nonempty array whose
first element is an object with a truthy _type member, in which case the
result is exactly the parsed array's elements in order. -/
theorem C10_sanity_gate (data s : List Char) (v : Json)
    (h1 : captureBody data = some s)
    (h2 : jsonParse (repairBodyStr s) = some v) :
    extractSanityBlocks data
      = match v with
        | Json.arr (Json.obj kvs :: bs) =>
          if truthyO (objGet kvs "_type".data) then Json.obj kvs :: bs else []
        | _ => [] := by
  rw [extractSanityBlocks, h1]
  have hL : (match jsonParse (repairBodyStr s) with
      | none => ([] : List Json)
      | some parsed => sanityGate parsed) = sanityGate v := by rw [h2]
  refine hL.trans ?_
  cases v with
  | arr elems =>
    cases elems with
    | nil => rfl
    | cons b bs =>
      cases b <;> rfl
  | null => rfl
  | bool b => rfl
  | num n => rfl
  | str s2 => rfl
  | obj kvs => rfl

/-- Claim C10 witness: a body array whose first element is a number parses
but is rejected by the gate. -/
theorem C10_sanity_gate_witness :
    extractSanityBlocks "\"body\":[1,2]".data = [] := by
  have h := C10_sanity_gate "\"body\":[1,2]".data "[1,2]".data
    (Json.arr [Json.num 1, Json.num 2]) rfl rfl
  exact h

/-! ## Single-Article Metadata Extractor (extractSingleArticleFromRSC,
server.js lines 1267-1367) -/

/-- JavaScript regex whitespace class (the characters relevant here). -/
def jsWs (c : Char) : Bool :=
  c == ' ' || c == '\t' || c == '\n' || c == '\r' || c == '\x0b' || c == '\x0c'

/-- Consume `pat` as a literal prefix of `l`, returning the rest. -/
def dropPrefixSeq : List Char → List Char → Option (List Char)
  | [], l => some l
  | _ :: _, [] => none
  | p :: ps, c :: cs => if p = c then dropPrefixSeq ps cs else none

/-- Match the anchored field regex quote-key-quote, optional whitespace,
colon, optional whitespace, quoted nonempty value, at the head of `l`:
returns the captured value and the rest after the match. -/
def matchFieldAt (key : List Char) (l : List Char) : Option (List Char × List Char) :=
  match dropPrefixSeq ('"' :: key ++ ['"']) l with
  | none => none
  | some r1 =>
    match r1.dropWhile jsWs with
    | ':' :: r3 =>
      match (r3.dropWhile jsWs) with
      | '"' :: r5 =>
        let val := r5.takeWhile fun c => c != '"'
        match r5.dropWhile fun c => c != '"' with
        | '"' :: r7 => if val.isEmpty then none else some (val, r7)
        | _ => none
      | _ => none
    | _ => none

/-- Leftmost match of the field regex: returns the match index, the
captured value and the rest after the match. -/
def findField (key : List Char) : List Char → Option (Nat × List Char × List Char)
  | [] => none
  | l@(_ :: t) =>
    match matchFieldAt key l with
    | some (val, rest) => some (0, val, rest)
    | none => (findField key t).map fun p => (p.1 + 1, p.2.1, p.2.2)

/-- Hex-color test of line 1306: a hash followed by three to eight
hexadecimal digits and nothing else. -/
def isHexColor (val : List Char) : Bool :=
  match val with
  | '#' :: rest =>
    decide (3 ≤ rest.length) && decide (rest.length ≤ 8) && rest.all isHexDigit
  | _ => false

/-- Title-selection loop of lines 1302-1310: repeated title-field matches,
skipping hex-color values and values shorter than five characters,
accepting the first survivor; the scan resumes after each match as the
regex lastIndex does. -/
def pickTitle : Nat → List Char → Option (List Char)
  | 0, _ => none
  | _, [] => none
  | fuel + 1, l@(_ :: t) =>
    match matchFieldAt "title".data l with
    | some (val, rest) =>
      if isHexColor val then pickTitle fuel rest
      else if val.length < 5 then pickTitle fuel rest
      else some val
    | none => pickTitle fuel t

/-- Result record of extractSingleArticleFromRSC; the JSON-fallback
strategy can assign arbitrary JSON values to summary and publishedOn, so
the fields are JSON values (strategy 1 only ever assigns strings). -/
structure ArticleMeta where
  title : Json
  summary : Json
  publishedOn : Json

/-- Known article type values (line 1271). -/
def ARTICLE_TYPES : List (List Char) :=
  ["engineeringArticle".data, "post".data, "researchArticle".data]

/-- The type marker searched for per article type (line 1281). -/
def typeMarker (t : List Char) : List Char := "\"_type\":\"".data ++ t ++ ['"']

/-- Strategy 1 for one article type (lines 1280-1333): anchor on the type
marker, search all text after it for publishedOn, read summary and title
from the bounded cluster around the anchor, and fall back to a 50000
character window when no title was found. -/
def strat1For (data : List Char) (t : List Char) (r : ArticleMeta) : ArticleMeta :=
  match indexOfSeq (typeMarker t) data with
  | none => r
  | some idx =>
    let afterType := data.drop idx
    let r1 :=
      match findField "publishedOn".data afterType with
      | some (datePos, dval, _) =>
        let clusterEnd := min afterType.length (datePos + 5000)
        let cluster := (afterType.take clusterEnd).drop (datePos - 500)
        let r2 := { r with publishedOn := Json.str dval }
        let r3 :=
          match findField "summary".data cluster with
          | some (_, sval, _) => { r2 with summary := Json.str sval }
          | none => r2
        match pickTitle cluster.length cluster with
        | some tval => { r3 with title := Json.str tval }
        | none => r3
      | none => r
    if truthy r1.title then r1
    else
      let window := afterType.take 50000
      let r4 :=
        match findField "summary".data window with
        | some (_, sval, _) =>
          if truthy r1.summary then r1 else { r1 with summary := Json.str sval }
        | none => r1
      match pickTitle window.length window with
      | some tval => { r4 with title := Json.str tval }
      | none => r4

/-- Strategy 1 over the known types, stopping once a title is found
(lines 1280 and 1332). -/
def strat1 (data : List Char) : ArticleMeta :=
  ARTICLE_TYPES.foldl (fun r t => if truthy r.title then r else strat1For data t r)
    ⟨Json.str [], Json.str [], Json.str []⟩

/-- Brace start indices for the standalone-fragment fallback
(lines 1337-1340). -/
def braceStartIndices (data : List Char) : List Nat :=
  (List.range data.length).filter fun i => data.getD i ' ' == '\x7b'

/-- One candidate of strategy 2 (lines 1342-1363): brace-matched fragment,
JSON parse, and acceptance when the parsed object has a string title and a
known _type; summary and publishedOn are copied when truthy.  No hex-color
or length filtering is applied here. -/
def strat2Step (data : List Char) (r : ArticleMeta) (start : Nat) : ArticleMeta :=
  if truthy r.title then r
  else
    match naiveClose '\x7b' '\x7d' (data.drop start) 0 0 100000 with
    | none => r
    | some k =>
      match jsonParse ((data.drop start).take k) with
      | some (Json.obj kvs) =>
        match objGet kvs "title".data with
        | some (Json.str tv) =>
          let tyOk : Bool :=
            match objGet kvs "_type".data with
            | some (Json.str ty) => decide (ty ∈ ARTICLE_TYPES)
            | _ => false
          if !tv.isEmpty && tyOk then
            let r1 := { r with title := Json.str tv }
            let r2 := if truthyO (objGet kvs "summary".data) then
                { r1 with summary := (objGet kvs "summary".data).getD Json.null }
              else r1
            if truthyO (objGet kvs "publishedOn".data) then
              { r2 with publishedOn := (objGet kvs "publishedOn".data).getD Json.null }
            else r2
          else r
        | _ => r
      | _ => r

/-- Strategy 2 over every brace start (lines 1336-1364). -/
def strat2 (data : List Char) (r : ArticleMeta) : ArticleMeta :=
  if truthy r.title then r
  else (braceStartIndices data).foldl (strat2Step data) r

/-- Model of extractSingleArticleFromRSC (lines 1267-1367). -/
def extractSingleArticleFromRSC (data : List Char) : ArticleMeta :=
  strat2 data (strat1 data)

/-- Claim C4 counterexample: on a standalone JSON fragment with a known
article type and a hex-color title, the fallback strategy returns the
title #fff, which matches the hex-color pattern and is shorter than five
characters: the function does not never return such titles. -/
theorem C4_counterexample :
    extractSingleArticleFromRSC "\x7b\"_type\":\"post\",\"title\":\"#fff\"\x7d".data
      = ⟨Json.str "#fff".data, Json.str [], Json.str []⟩
    ∧ isHexColor "#fff".data = true
    ∧ "#fff".data.length < 5 :=
  ⟨rfl, rfl, by decide⟩

set_option maxRecDepth 4000 in
/-- Claim C4 (amended): the anchored title scan of strategy 1 never
accepts a hex-color value or a value shorter than five characters, and on
input containing a known discriminator followed by a publishedOn anchor
with summary and title in the anchor window (and decoy hex-color titles
before the true one) all three fields are returned correctly; the
standalone-JSON fallback strategy, however, applies no such filter, so
the function as a whole can return a hex-color or short title
(C4_counterexample). -/
theorem C4_title_scan_amended :
    (∀ fuel l v, pickTitle fuel l = some v → isHexColor v = false ∧ 5 ≤ v.length)
    ∧ extractSingleArticleFromRSC
        ("\"_type\":\"engineeringArticle\",\"body\":[...],\"title\":\"#fff\",\"title\":\"#000\","
          ++ "\"publishedOn\":\"2026-02-05\",\"summary\":\"We built a compiler\","
          ++ "\"title\":\"Building a C compiler\"").data
      = ⟨Json.str "Building a C compiler".data, Json.str "We built a compiler".data,
         Json.str "2026-02-05".data⟩ := by
  refine ⟨?_, rfl⟩
  intro fuel
  induction fuel with
  | zero => intro l v h; simp [pickTitle] at h
  | succ fu ih =>
    intro l v h
    cases l with
    | nil => simp [pickTitle] at h
    | cons c t =>
      rw [pickTitle] at h
      cases hm : matchFieldAt "title".data (c :: t) with
      | none =>
        rw [hm] at h
        exact ih t v h
      | some p =>
        rw [hm] at h
        obtain ⟨val, rest⟩ := p
        simp only at h
        by_cases hx : isHexColor val = true
        · rw [if_pos hx] at h
          exact ih rest v h
        · rw [if_neg hx] at h
          by_cases hl : val.length < 5
          · rw [if_pos hl] at h
            exact ih rest v h
          · rw [if_neg hl] at h
            rw [Option.some.injEq] at h
            subst h
            exact ⟨by simpa using hx, by omega⟩

/-! ## Rich-Text Block Renderer (sanityBlocksToHtml and helpers,
server.js lines 793-891, 1013-1065, 1384-1391) -/

/-- escapeHtml (lines 1384-1391): falsy input gives the empty string,
then four sequential global single-character replacements. -/
def escapeHtmlStr (text : List Char) : List Char :=
  if text.isEmpty then []
  else
    ((((text.flatMap fun c => if c = '&' then "&amp;".data else [c]).flatMap
        fun c => if c = '<' then "&lt;".data else [c]).flatMap
        fun c => if c = '>' then "&gt;".data else [c]).flatMap
        fun c => if c = '"' then "&quot;".data else [c])

/-- Trim of leading and trailing whitespace. -/
def trimStr (l : List Char) : List Char :=
  ((l.dropWhile jsWs).reverse.dropWhile jsWs).reverse

/-- String coercion used where the code feeds a possibly non-string value
into string positions (template literals). -/
def textOf (v : Json) : List Char :=
  match v with
  | .str s => s
  | v => jsToString v

/-- Application of one mark to rendered span text (lines 1041-1060):
strong, em and code wrap directly; any other mark is resolved against the
mark definitions by key and wraps in a link when the definition is a link
with a truthy href; unresolved marks leave the text unchanged. -/
def applyMark (markDefs : List Json) (mark : Json) (text : List Char) : List Char :=
  if jsonBeq mark (Json.str "strong".data) then
    "<strong>".data ++ text ++ "</strong>".data
  else if jsonBeq mark (Json.str "em".data) then
    "<em>".data ++ text ++ "</em>".data
  else if jsonBeq mark (Json.str "code".data) then
    "<code>".data ++ text ++ "</code>".data
  else
    match markDefs.find? fun d =>
        match d with
        | .obj dk =>
          match objGet dk "_key".data with
          | some kv => jsonBeq kv mark
          | none => false
        | _ => false with
    | some (Json.obj dk) =>
      if (match objGet dk "_type".data with
          | some (Json.str t) => t == "link".data
          | _ => false)
          && truthyO (objGet dk "href".data) then
        "<a href=\"".data
          ++ escapeHtmlStr (textOf ((objGet dk "href".data).getD Json.null))
          ++ "\">".data ++ text ++ "</a>".data
      else text
    | _ => text

/-- Rendering of one child span (lines 1031-1064): non-span children and
falsy text render empty; the text is HTML-escaped and the marks apply in
order. -/
def renderChild (markDefs : List Json) (child : Json) : List Char :=
  match child with
  | .obj kvs =>
    if (match objGet kvs "_type".data with
        | some (Json.str t) => t == "span".data
        | _ => false) = false then []
    else
      match objGet kvs "text".data with
      | some tv =>
        if truthy tv then
          let marks := match objGet kvs "marks".data with
            | some (Json.arr ms) => ms
            | _ => []
          marks.foldl (fun txt mark => applyMark markDefs mark txt)
            (escapeHtmlStr (textOf tv))
        else []
      | none => []
  | _ => []

/-- renderBlockChildren (lines 1026-1065). -/
def renderBlockChildren (block : Json) : List Char :=
  match block with
  | .obj kvs =>
    match objGet kvs "children".data with
    | some (Json.arr children) =>
      let markDefs := match objGet kvs "markDefs".data with
        | some (Json.arr defs) => defs
        | _ => []
      (children.map (renderChild markDefs)).flatten
    | _ => []
  | _ => []

/-- extractCaptionText (lines 1013-1019). -/
def extractCaptionText (kvs : List (List Char × Json)) : List Char :=
  match objGet kvs "caption".data with
  | some (Json.arr caps) =>
    trimStr (List.intercalate " ".data (caps.map renderBlockChildren))
  | _ => []

/-- Rendering of one table cell (lines 861-872). -/
def renderTableCell (headerRow : Bool) (cell : Json) : List Char :=
  let tag := if headerRow then "th".data else "td".data
  let cellText :=
    match cell with
    | .obj ckvs =>
      if (match objGet ckvs "_type".data with
          | some (Json.str t) => t == "tableCell".data
          | _ => false) then
        match objGet ckvs "content".data with
        | some (Json.arr content) =>
          List.intercalate " ".data (content.map renderBlockChildren)
        | _ => []
      else []
    | .arr cells2 => (cells2.map renderBlockChildren).flatten
    | .str s => escapeHtmlStr s
    | _ => []
  '<' :: tag ++ '>' :: cellText ++ '<' :: '/' :: tag ++ ">".data

/-- Chunks of one table row (lines 858-875): the open row tag, the cells,
the close row tag. -/
def renderTableRow (headerRow : Bool) (row : Json) : List (List Char) :=
  let cells := match row with
    | .obj rkvs =>
      match objGet rkvs "cells".data with
      | some (Json.arr cs) => cs
      | _ => []
    | _ => []
  "<tr>".data :: cells.map (renderTableCell headerRow) ++ ["</tr>".data]

/-- Indexed map distinguishing the first (header) row. -/
def renderTableRows : Bool → List Json → List (List Char)
  | _, [] => []
  | isFirst, row :: rest =>
    renderTableRow isFirst row ++ renderTableRows false rest

/-- The alt fallback of line 845: description, else alt, else empty. -/
def altFallback (kvs : List (List Char × Json)) : List Char :=
  match objGet kvs "alt".data with
  | some v => if truthy v then textOf v else []
  | none => []

/-- Chunks pushed for one non-list block (the switch of lines 820-883);
an unknown type, an empty paragraph, an image without url or asset ref
and an empty table push nothing. -/
def renderNonListChunks (kvs : List (List Char × Json)) : List (List Char) :=
  match objGet kvs "_type".data with
  | some (Json.str ty) =>
    if ty = "block".data then
      let style : Json := match objGet kvs "style".data with
        | some v => if truthy v then v else Json.str "normal".data
        | none => Json.str "normal".data
      let content := renderBlockChildren (Json.obj kvs)
      if (trimStr content).isEmpty then []
      else if jsonBeq style (Json.str "h1".data) then
        ["<h1>".data ++ content ++ "</h1>".data]
      else if jsonBeq style (Json.str "h2".data) then
        ["<h2>".data ++ content ++ "</h2>".data]
      else if jsonBeq style (Json.str "h3".data) then
        ["<h3>".data ++ content ++ "</h3>".data]
      else if jsonBeq style (Json.str "h4".data) then
        ["<h4>".data ++ content ++ "</h4>".data]
      else if jsonBeq style (Json.str "blockquote".data) then
        ["<blockquote>".data ++ content ++ "</blockquote>".data]
      else ["<p>".data ++ content ++ "</p>".data]
    else if ty = "code".data ∨ ty = "codeBlock".data then
      let lang := match objGet kvs "language".data with
        | some v => if truthy v then textOf v else []
        | none => []
      let code := escapeHtmlStr (match objGet kvs "code".data with
        | some v => if truthy v then textOf v else []
        | none => [])
      ["<pre><code class=\"language-".data ++ lang ++ "\">".data ++ code
        ++ "</code></pre>".data]
    else if ty = "image".data then
      let alt := match objGet kvs "description".data with
        | some v => if truthy v then textOf v else altFallback kvs
        | none => altFallback kvs
      let caption := extractCaptionText kvs
      let captionChunk :=
        if caption.isEmpty then []
        else "<figcaption>".data ++ escapeHtmlStr caption ++ "</figcaption>".data
      if truthyO (objGet kvs "url".data) then
        ["<figure><img src=\"".data
          ++ escapeHtmlStr (textOf ((objGet kvs "url".data).getD Json.null))
          ++ "\" alt=\"".data ++ escapeHtmlStr alt ++ "\" />".data
          ++ captionChunk ++ "</figure>".data]
      else if (match objGet kvs "asset".data with
          | some (Json.obj akvs) => truthyO (objGet akvs "_ref".data)
          | _ => false) then
        ["<figure><img alt=\"".data ++ escapeHtmlStr alt ++ "\" />".data
          ++ captionChunk ++ "</figure>".data]
      else []
    else if ty = "table".data then
      let rows := match objGet kvs "rows".data with
        | some (Json.arr rs) => rs
        | _ => []
      if rows.isEmpty then []
      else "<table>".data :: renderTableRows true rows ++ ["</table>".data]
    else []
  | _ => []

/-- The list tag of a block carrying a truthy listItem (lines 803-804):
ol for the number kind, ul for any other truthy kind. -/
def listItemTag (kvs : List (List Char × Json)) : Option (List Char) :=
  match objGet kvs "listItem".data with
  | some v =>
    if truthy v then
      some (if jsonBeq v (Json.str "number".data) then "ol".data else "ul".data)
    else none
  | none => none

/-- Open tag chunk of a list container. -/
def openTagChunk (tag : List Char) : List Char := '<' :: tag ++ ['>']

/-- Close tag chunk of a list container. -/
def closeTagChunk (tag : List Char) : List Char := '<' :: '/' :: tag ++ ['>']

/-- List item chunk (line 810). -/
def liChunk (kvs : List (List Char × Json)) : List Char :=
  "<li>".data ++ renderBlockChildren (Json.obj kvs) ++ "</li>".data

/-- Chunks closing the current container, if one is open. -/
def closeChunks : Option (List Char) → List (List Char)
  | some tag => [closeTagChunk tag]
  | none => []

/-- A block participates only when it is an object with a truthy _type
(line 800); otherwise it is skipped without affecting the list state. -/
def blockKvs : Json → Option (List (List Char × Json))
  | .obj kvs => if truthyO (objGet kvs "_type".data) then some kvs else none
  | _ => none

/-- Chunk accumulation of sanityBlocksToHtml (lines 796-889) with the
currently open list container threaded through the iteration. -/
def blocksToChunks : List Json → Option (List Char) → List (List Char)
  | [], cur => closeChunks cur
  | b :: rest, cur =>
    match blockKvs b with
    | none => blocksToChunks rest cur
    | some kvs =>
      match listItemTag kvs with
      | some tag =>
        (if cur = some tag then [] else closeChunks cur ++ [openTagChunk tag])
          ++ liChunk kvs :: blocksToChunks rest (some tag)
      | none =>
        closeChunks cur ++ renderNonListChunks kvs ++ blocksToChunks rest none

/-- Model of sanityBlocksToHtml (lines 793-892): the chunks joined by
newlines (empty input renders empty). -/
def sanityBlocksToHtml (blocks : List Json) : List Char :=
  if blocks.isEmpty then []
  else List.intercalate ['\n'] (blocksToChunks blocks none)

/-! Specification side of claim C5: the output decomposes into segments,
where each maximal run of consecutive same-kind list items becomes exactly
one container (open tag, items, close tag) and every non-list block's
output lies outside any container. -/

/-- Specification-side segment: one non-list block, or one maximal run of
same-kind list items. -/
inductive RSeg where
  | plain (kvs : List (List Char × Json)) : RSeg
  | run (tag : List Char) (items : List (List (List Char × Json))) : RSeg

/-- Specification-side block classification. -/
inductive BClass where
  | skip : BClass
  | item (tag : List Char) (kvs : List (List Char × Json)) : BClass
  | plain (kvs : List (List Char × Json)) : BClass

/-- Classification of one block: skipped, a list item of a kind, or a
non-list block. -/
def classify (b : Json) : BClass :=
  match blockKvs b with
  | none => .skip
  | some kvs =>
    match listItemTag kvs with
    | some tag => .item tag kvs
    | none => .plain kvs

/-- Merging one list item into the segments of the rest: it joins a
leading run of the same kind, otherwise starts a new run. -/
def groupConsItem (tag : List Char) (kvs : List (List Char × Json))
    (G : List RSeg) : List RSeg :=
  match G with
  | RSeg.run tag2 items :: segs =>
    if tag2 = tag then RSeg.run tag (kvs :: items) :: segs
    else RSeg.run tag [kvs] :: RSeg.run tag2 items :: segs
  | segs => RSeg.run tag [kvs] :: segs

/-- Specification-side grouping: consecutive list items of the same kind
merge into one run; skipped blocks vanish. -/
def groupRuns : List Json → List RSeg
  | [] => []
  | b :: rest =>
    match classify b with
    | .skip => groupRuns rest
    | .plain kvs => RSeg.plain kvs :: groupRuns rest
    | .item tag kvs => groupConsItem tag kvs (groupRuns rest)

/-- Specification-side rendering of one segment: a run renders as exactly
one container. -/
def renderSeg : RSeg → List (List Char)
  | .plain kvs => renderNonListChunks kvs
  | .run tag items => openTagChunk tag :: items.map liChunk ++ [closeTagChunk tag]

/-- Specification-side chunk sequence. -/
def specChunks (blocks : List Json) : List (List Char) :=
  ((groupRuns blocks).map renderSeg).flatten

/-- Chunk stream continuing under an open container: a leading run of the
same kind continues the container, anything else closes it first. -/
def mergeState (tag : List Char) : List RSeg → List (List Char)
  | RSeg.run tag2 items :: segs =>
    if tag2 = tag then
      items.map liChunk ++ closeTagChunk tag :: ((segs.map renderSeg).flatten)
    else closeTagChunk tag :: (((RSeg.run tag2 items :: segs).map renderSeg).flatten)
  | segs => closeTagChunk tag :: ((segs.map renderSeg).flatten)

theorem render_groupConsItem (tag : List Char) (kvs : List (List Char × Json))
    (G : List RSeg) :
    ((groupConsItem tag kvs G).map renderSeg).flatten
      = openTagChunk tag :: liChunk kvs :: mergeState tag G := by
  cases G with
  | nil => simp [groupConsItem, renderSeg, mergeState]
  | cons s segs =>
    cases s with
    | plain kvs2 => simp [groupConsItem, renderSeg, mergeState]
    | run tag2 items =>
      by_cases ht : tag2 = tag
      · subst ht
        simp [groupConsItem, renderSeg, mergeState]
      · simp only [groupConsItem, if_neg ht, mergeState]
        simp [renderSeg]

theorem mergeState_groupConsItem_ne (tag tag2 : List Char)
    (kvs : List (List Char × Json)) (G : List RSeg) (h : tag2 ≠ tag) :
    mergeState tag (groupConsItem tag2 kvs G)
      = closeTagChunk tag :: ((groupConsItem tag2 kvs G).map renderSeg).flatten := by
  cases G with
  | nil => simp [groupConsItem, mergeState, if_neg h]
  | cons s segs =>
    cases s with
    | plain kvs2 => simp [groupConsItem, mergeState, if_neg h]
    | run tag3 items =>
      by_cases h3 : tag3 = tag2
      · subst h3
        simp [groupConsItem, mergeState, if_neg h]
      · simp only [groupConsItem, if_neg h3]
        simp [mergeState, if_neg h]

theorem mergeState_groupConsItem_eq (tag : List Char)
    (kvs : List (List Char × Json)) (G : List RSeg) :
    mergeState tag (groupConsItem tag kvs G)
      = liChunk kvs :: mergeState tag G := by
  cases G with
  | nil => simp [groupConsItem, mergeState]
  | cons s segs =>
    cases s with
    | plain kvs2 => simp [groupConsItem, mergeState, renderSeg]
    | run tag3 items =>
      by_cases h3 : tag3 = tag
      · subst h3
        simp [groupConsItem, mergeState]
      · simp only [groupConsItem, if_neg h3]
        simp [mergeState, if_neg h3, renderSeg]

/-- The implementation chunk stream equals the specification segments, in
both container states. -/
theorem blocksToChunks_eq_spec (blocks : List Json) :
    blocksToChunks blocks none = specChunks blocks
      ∧ ∀ tag, blocksToChunks blocks (some tag) = mergeState tag (groupRuns blocks) := by
  induction blocks with
  | nil =>
    constructor
    · simp [blocksToChunks, specChunks, groupRuns, closeChunks]
    · intro tag
      simp [blocksToChunks, mergeState, groupRuns, closeChunks]
  | cons b rest ih =>
    cases hk : blockKvs b with
    | none =>
      have hcl : classify b = .skip := by simp [classify, hk]
      constructor
      · rw [blocksToChunks, hk, specChunks, groupRuns, hcl, ih.1, specChunks]
      · intro tag
        rw [blocksToChunks, hk, groupRuns, hcl, ih.2 tag]
    | some kvs =>
      cases ht : listItemTag kvs with
      | none =>
        have hcl : classify b = .plain kvs := by simp [classify, hk, ht]
        constructor
        · simp only [blocksToChunks, hk, ht, specChunks, groupRuns, hcl, ih.1]
          simp [closeChunks, renderSeg, specChunks]
        · intro tag
          simp only [blocksToChunks, hk, ht, groupRuns, hcl, ih.1, mergeState]
          simp [closeChunks, renderSeg, specChunks]
      | some tag2 =>
        have hcl : classify b = .item tag2 kvs := by simp [classify, hk, ht]
        constructor
        · simp only [blocksToChunks, hk, ht, specChunks, groupRuns, hcl,
            render_groupConsItem, ih.2 tag2]
          simp [closeChunks]
        · intro tag
          simp only [blocksToChunks, hk, ht, groupRuns, hcl]
          by_cases htt : tag = tag2
          · subst htt
            rw [if_pos rfl, mergeState_groupConsItem_eq, ih.2 tag]
            simp
          · rw [if_neg (by intro hx; injection hx with hx2; exact htt hx2),
              mergeState_groupConsItem_ne tag tag2 kvs _ (fun hx => htt hx.symm),
              render_groupConsItem, ih.2 tag2]
            simp [closeChunks]

/-- Claim C5: sanityBlocksToHtml groups consecutive list-item blocks of
one kind into a single container and closes any open container before a
non-list block's output, at a kind change, and at end of input: the
emitted chunk stream equals the segment rendering in which every run of
same-kind list items is exactly one open tag, its items, and one close
tag, with all non-list output outside every container. -/
theorem C5_list_grouping (blocks : List Json) :
    blocksToChunks blocks none = specChunks blocks
      ∧ sanityBlocksToHtml blocks
        = (if blocks.isEmpty then []
           else List.intercalate ['\n'] (specChunks blocks)) := by
  refine ⟨(blocksToChunks_eq_spec blocks).1, ?_⟩
  rw [sanityBlocksToHtml, (blocksToChunks_eq_spec blocks).1]

/-! ## Pattern-fallback strategies of parseAnthropicArticles
(server.js lines 597-686) and the exception model (claim C8)

The lazy regex segments of the fallback patterns are modelled with their
deterministic first-occurrence reading: a lazy non-brace segment followed
by a literal scans forward over non-brace characters to the earliest
position where the continuation matches. -/

/-- unescapeJsonString (lines 1372-1379): backslash-n, backslash-t,
backslash-quote, double-backslash, in that order. -/
def unescapeJsonString (l : List Char) : List Char :=
  replPair '\\' '\\' '\\'
    (replPair '\\' '"' '"' (replPair '\\' 't' '\t' (replPair '\\' 'n' '\n' l)))

/-- Like matchFieldAt but allowing an empty captured value, for the
summary group whose character class is starred. -/
def matchFieldAtE (key : List Char) (l : List Char) : Option (List Char × List Char) :=
  match dropPrefixSeq ('"' :: key ++ ['"']) l with
  | none => none
  | some r1 =>
    match r1.dropWhile jsWs with
    | ':' :: r3 =>
      match r3.dropWhile jsWs with
      | '"' :: r5 =>
        let val := r5.takeWhile fun c => c != '"'
        match r5.dropWhile fun c => c != '"' with
        | '"' :: r7 => some (val, r7)
        | _ => none
      | _ => none
    | _ => none

/-- Match the slug object pattern: quoted slug key, colon, open brace,
quoted current key, colon, quoted nonempty value, close brace, with
optional whitespace between tokens. -/
def matchSlugAt (l : List Char) : Option (List Char × List Char) :=
  match dropPrefixSeq "\"slug\"".data l with
  | none => none
  | some r1 =>
    match r1.dropWhile jsWs with
    | ':' :: r2 =>
      match r2.dropWhile jsWs with
      | '\x7b' :: r3 =>
        match dropPrefixSeq "\"current\"".data (r3.dropWhile jsWs) with
        | none => none
        | some r4 =>
          match r4.dropWhile jsWs with
          | ':' :: r5 =>
            match r5.dropWhile jsWs with
            | '"' :: r6 =>
              let val := r6.takeWhile fun c => c != '"'
              match r6.dropWhile fun c => c != '"' with
              | '"' :: r7 =>
                if val.isEmpty then none
                else
                  match r7.dropWhile jsWs with
                  | '\x7d' :: r8 => some (val, r8)
                  | _ => none
              | _ => none
            | _ => none
          | _ => none
      | _ => none
    | _ => none

/-- Lazy scan over non-brace characters to the earliest position where the
sub-matcher succeeds. -/
def scanNoBrace {α : Type} (m : List Char → Option (α × List Char)) :
    Nat → List Char → Option (α × List Char)
  | 0, _ => none
  | _, [] => none
  | fuel + 1, l@(c :: t) =>
    match m l with
    | some r => some r
    | none => if c = '\x7d' then none else scanNoBrace m fuel t

/-- Captured groups of the fallback patterns: title, slug, publishedOn,
optional summary. -/
structure PatMatch where
  title : List Char
  slug : List Char
  publishedOn : List Char
  summary : Option (List Char)

/-- One match attempt of pattern 1 (line 623): title first, then slug
object, then publishedOn, then an optional summary. -/
def pattern1At (l : List Char) : Option (PatMatch × List Char) :=
  match matchFieldAt "title".data l with
  | none => none
  | some (ti, r1) =>
    match scanNoBrace matchSlugAt r1.length r1 with
    | none => none
    | some (sl, r2) =>
      match scanNoBrace (matchFieldAt "publishedOn".data) r2.length r2 with
      | none => none
      | some (pu, r3) =>
        match scanNoBrace (matchFieldAtE "summary".data) r3.length r3 with
        | some (sm, r4) => some (⟨ti, sl, pu, some sm⟩, r4)
        | none => some (⟨ti, sl, pu, none⟩, r3)

/-- One match attempt of pattern 2 (line 639): slug object first, then
title, then publishedOn, then an optional summary. -/
def pattern2At (l : List Char) : Option (PatMatch × List Char) :=
  match matchSlugAt l with
  | none => none
  | some (sl, r1) =>
    match scanNoBrace (matchFieldAt "title".data) r1.length r1 with
    | none => none
    | some (ti, r2) =>
      match scanNoBrace (matchFieldAt "publishedOn".data) r2.length r2 with
      | none => none
      | some (pu, r3) =>
        match scanNoBrace (matchFieldAtE "summary".data) r3.length r3 with
        | some (sm, r4) => some (⟨ti, sl, pu, some sm⟩, r4)
        | none => some (⟨ti, sl, pu, none⟩, r3)

/-- Global regex loop: collect every match left to right, resuming after
each match, advancing one character on failure. -/
def scanPattern {α : Type} (m : List Char → Option (α × List Char)) :
    Nat → List Char → List α
  | 0, _ => []
  | _, [] => []
  | fuel + 1, l@(_ :: t) =>
    match m l with
    | some (a, rest) => a :: scanPattern m fuel rest
    | none => scanPattern m fuel t

/-- Push one pattern match as a stub under slug deduplication
(lines 624-652). -/
def pushPatMatch (basePath : List Char) (st : List Stub × List Json) (pm : PatMatch) :
    List Stub × List Json :=
  if seenHas st.2 (Json.str pm.slug) then st
  else
    (st.1 ++ [⟨Json.str (unescapeJsonString pm.title), Json.str pm.slug,
       Json.str pm.publishedOn,
       Json.str (match pm.summary with
         | some sm => unescapeJsonString sm
         | none => []),
       anthropicBase ++ basePath ++ '/' :: pm.slug⟩],
     st.2 ++ [Json.str pm.slug])

/-! ## Exception model (claim C8)

Throwing operations of the source are made explicit in the Except monad:
JSON.parse (throws on invalid input), property access (throws on null),
and the URL constructor (its outcome on the feed URL is passed as a
parameter).  Every try-catch of the source becomes tryCatchD at the same
place. -/

/-- A try-catch whose catch block ignores the error and yields a default,
as every catch block of these functions does. -/
def tryCatchD {α : Type} (x : Except Unit α) (d : α) : α :=
  match x with
  | Except.ok v => v
  | Except.error _ => d

/-- JSON.parse as a throwing operation. -/
def jsonParseE (l : List Char) : Except Unit Json :=
  match jsonParse l with
  | some v => Except.ok v
  | none => Except.error ()

/-- Property access as a throwing operation: reading a property of null
raises a TypeError, reading a missing property of any other value yields
undefined. -/
def propGetE (v : Json) (k : List Char) : Except Unit (Option Json) :=
  match v with
  | Json.null => Except.error ()
  | Json.obj kvs => Except.ok (objGet kvs k)
  | _ => Except.ok none

/-- extractStep with the JSON.parse throw explicit: the try of lines
1128-1136 encloses exactly the parse and the walk of one candidate and
falls back to the unchanged state. -/
def extractStepE (data baseUrl basePath : List Char) (st : ExtState) (start : Nat) : ExtState :=
  if st.ranges.any fun r => decide (r.1 ≤ start) && decide (start < r.2) then st
  else
    let bracket := data.getD start ' '
    let closeB := if bracket = '[' then ']' else '\x7d'
    match naiveClose bracket closeB (data.drop start) 0 0 100000 with
    | none => st
    | some k =>
      tryCatchD
        ((jsonParseE ((data.drop start).take k)).map fun v =>
          let w := walkJson baseUrl basePath v st.seen
          ⟨st.ranges ++ [(start, start + k)], st.stubs ++ w.1, w.2⟩)
        st

/-- The instrumented candidate step agrees with the plain one: the parse
failure is caught exactly where the Option model absorbs it. -/
theorem extractStepE_eq (data baseUrl basePath : List Char) (st : ExtState) (start : Nat) :
    extractStepE data baseUrl basePath st start = extractStep data baseUrl basePath st start := by
  unfold extractStepE extractStep
  split
  · rfl
  · dsimp only
    split
    · rfl
    · rename_i k hk
      cases hj : jsonParse ((data.drop start).take k) <;>
        simp [tryCatchD, jsonParseE, hj, Except.map]

/-- Acceptance of one parsed strategy-2 fragment of
extractSingleArticleFromRSC (lines 1356-1361). -/
def strat2Accept (r : ArticleMeta) : Json → ArticleMeta
  | Json.obj kvs =>
    (match objGet kvs "title".data with
     | some (Json.str tv) =>
       let tyOk : Bool :=
         match objGet kvs "_type".data with
         | some (Json.str ty) => decide (ty ∈ ARTICLE_TYPES)
         | _ => false
       if !tv.isEmpty && tyOk then
         let r1 := { r with title := Json.str tv }
         let r2 := if truthyO (objGet kvs "summary".data) then
             { r1 with summary := (objGet kvs "summary".data).getD Json.null }
           else r1
         if truthyO (objGet kvs "publishedOn".data) then
           { r2 with publishedOn := (objGet kvs "publishedOn".data).getD Json.null }
         else r2
       else r
     | _ => r)
  | _ => r

/-- strat2Step with the JSON.parse throw explicit: the try of lines
1354-1362 encloses the parse and acceptance of one brace candidate. -/
def strat2StepE (data : List Char) (r : ArticleMeta) (start : Nat) : ArticleMeta :=
  if truthy r.title then r
  else
    match naiveClose '\x7b' '\x7d' (data.drop start) 0 0 100000 with
    | none => r
    | some k => tryCatchD ((jsonParseE ((data.drop start).take k)).map (strat2Accept r)) r

/-- The instrumented strategy-2 candidate agrees with the plain one. -/
theorem strat2StepE_eq (data : List Char) (r : ArticleMeta) (start : Nat) :
    strat2StepE data r start = strat2Step data r start := by
  unfold strat2StepE strat2Step
  split
  · rfl
  · split
    · rfl
    · rename_i k hk
      cases hj : jsonParse ((data.drop start).take k) with
      | none => simp [tryCatchD, jsonParseE, hj, Except.map]
      | some v =>
        cases v <;> simp [tryCatchD, jsonParseE, hj, Except.map, strat2Accept]

/-- The instrumented strategy-2 fold agrees with the plain one. -/
theorem strat2FoldE_eq (data : List Char) (l : List Nat) (r : ArticleMeta) :
    l.foldl (strat2StepE data) r = l.foldl (strat2Step data) r := by
  induction l generalizing r with
  | nil => rfl
  | cons i t ih => rw [List.foldl_cons, List.foldl_cons, strat2StepE_eq, ih]

/-- Model of extractSingleArticleFromRSC with the throwing operations
explicit; its only throw site, the strategy-2 JSON.parse, is inside a
per-candidate try, so the function itself returns normally. -/
def extractSingleArticleFromRSCE (data : List Char) : Except Unit ArticleMeta :=
  Except.ok
    (let r := strat1 data
     if truthy r.title then r
     else (braceStartIndices data).foldl (strat2StepE data) r)

/-- extractSanityBlocks with the JSON.parse throw explicit: the try of
lines 745-784 encloses the whole body and falls back to the empty list. -/
def extractSanityBlocksE (data : List Char) : Except Unit (List Json) :=
  Except.ok
    (tryCatchD
      (match captureBody data with
       | none => Except.ok []
       | some bodyStr => (jsonParseE (repairBodyStr bodyStr)).map sanityGate)
      [])

/-- Lazy segment of the strategy-3 array regex: consume characters up to
and including the earliest occurrence of the literal; with allowBrace
false the segment may not cross a close brace (a caret-brace class). -/
def lazyUntilLit (lit : List Char) (allowBrace : Bool) : Nat → List Char → Option (List Char)
  | 0, _ => none
  | _, [] => none
  | fuel + 1, l@(c :: t) =>
    match dropPrefixSeq lit l with
    | some r => some r
    | none =>
      if !allowBrace && c = '\x7d' then none
      else lazyUntilLit lit allowBrace fuel t

/-- One match attempt of the strategy-3 array regex (line 659): an open
bracket, lazily anything up to an open brace, lazily non-brace text up to
the literal title key, then the literal slug key, then the close brace,
then lazily anything up to a close bracket; yields the matched substring
and the rest. -/
def matchArr3At (l : List Char) : Option (List Char × List Char) :=
  match l with
  | '[' :: t =>
    match lazyUntilLit ['\x7b'] true t.length t with
    | none => none
    | some r1 =>
      match lazyUntilLit "\"title\"".data false r1.length r1 with
      | none => none
      | some r2 =>
        match lazyUntilLit "\"slug\"".data false r2.length r2 with
        | none => none
        | some r3 =>
          match lazyUntilLit ['\x7d'] false r3.length r3 with
          | none => none
          | some r4 =>
            match lazyUntilLit [']'] true r4.length r4 with
            | none => none
            | some r5 => some (l.take (l.length - r5.length), r5)
  | _ => none

/-- One item of a parsed strategy-3 array (lines 665-678), with property
access on null explicit: reading title of a null item throws. -/
def strat3ItemE (basePath : List Char) (st : List Stub × List Json) (item : Json) :
    Except Unit (List Stub × List Json) := do
  let titleO ← propGetE item "title".data
  if truthyO titleO then do
    let slugFO ← propGetE item "slug".data
    if truthyO slugFO then
      match resolveSlug (slugFO.getD Json.null) with
      | some sv =>
        if truthy sv && !(seenHas st.2 sv) then do
          let pubO ← propGetE item "publishedOn".data
          let dateO ← propGetE item "date".data
          let smO ← propGetE item "summary".data
          let descO ← propGetE item "description".data
          pure (st.1 ++ [⟨titleO.getD Json.null, sv, firstTruthy pubO dateO,
            firstTruthy smO descO, anthropicBase ++ basePath ++ '/' :: jsToString sv⟩],
            st.2 ++ [sv])
        else pure st
      | none => pure st
    else pure st
  else pure st

/-- The item loop of one strategy-3 match: a throw at one item aborts the
remaining items of this match only (the catch of line 680), keeping the
articles pushed so far. -/
def strat3FoldItems (basePath : List Char) : List Json → List Stub × List Json → List Stub × List Json
  | [], st => st
  | item :: rest, st =>
    match strat3ItemE basePath st item with
    | Except.ok st2 => strat3FoldItems basePath rest st2
    | Except.error _ => st

/-- One strategy-3 regex match (lines 661-681): parse the matched text in
a try; parse failures and non-array values contribute nothing. -/
def strat3One (basePath : List Char) (st : List Stub × List Json) (captured : List Char) :
    List Stub × List Json :=
  tryCatchD
    ((jsonParseE captured).map fun parsed =>
      match parsed with
      | Json.arr items => strat3FoldItems basePath items st
      | _ => st)
    st

/-- The trailing-slash strip applied to the feed URL pathname (line 605). -/
def stripTrailingSlash (p : List Char) : List Char :=
  if p.getLast? = some '/' then p.dropLast else p

/-- Model of parseAnthropicArticles (lines 597-686) with every throwing
operation explicit.  The URL constructor is external; its outcome on the
feed URL is the parameter urlPathname (ok pathname, or error when the
constructor throws), caught on line 606 with fallback /engineering.
Strategy 1 walks parse-recovered fragments; strategy 2 runs the two
fallback patterns when no article was found; strategy 3 parses matched
arrays when there is still none. -/
def parseAnthropicArticlesE (payloads : List (List Char))
    (urlPathname : Except Unit (List Char)) : Except Unit (List Stub) :=
  let basePath := tryCatchD (urlPathname.map stripTrailingSlash) "/engineering".data
  let combined := List.intercalate ['\n'] payloads
  let st0 := (jsonStartIndices combined).foldl
    (extractStepE combined anthropicBase basePath) ⟨[], [], []⟩
  let s1 : List Stub × List Json := (st0.stubs, st0.seen)
  let s2 :=
    if s1.1.isEmpty then
      (scanPattern pattern2At combined.length combined).foldl (pushPatMatch basePath)
        ((scanPattern pattern1At combined.length combined).foldl (pushPatMatch basePath) s1)
    else s1
  let s3 :=
    if s2.1.isEmpty then
      (scanPattern matchArr3At combined.length combined).foldl (strat3One basePath) s2
    else s2
  Except.ok s3.1

/-- Claim C8: with every throwing operation modelled explicitly (JSON.parse,
property access on null items, the URL constructor), parseAnthropicArticles
always returns ok for every payload list and every URL outcome;
the instrumented per-candidate step of the fragment recoverer equals the
plain one, and a JSON parse failure at one candidate offset leaves the
state unchanged (it does not propagate, later candidates are still
processed); extractSingleArticleFromRSC and extractSanityBlocks always
return ok with their plain degraded values. -/
theorem C8_never_throws :
    (∀ payloads urlPathname, ∃ v, parseAnthropicArticlesE payloads urlPathname = Except.ok v)
    ∧ (∀ data baseUrl basePath st start,
        extractStepE data baseUrl basePath st start = extractStep data baseUrl basePath st start)
    ∧ (∀ data baseUrl basePath st start k,
        (st.ranges.any fun r => decide (r.1 ≤ start) && decide (start < r.2)) = false →
        naiveClose (data.getD start ' ')
            (if data.getD start ' ' = '[' then ']' else '\x7d') (data.drop start) 0 0 100000
          = some k →
        jsonParse ((data.drop start).take k) = none →
        extractStep data baseUrl basePath st start = st)
    ∧ (∀ data, extractSingleArticleFromRSCE data = Except.ok (extractSingleArticleFromRSC data))
    ∧ (∀ data, extractSanityBlocksE data = Except.ok (extractSanityBlocks data)) := by
  refine ⟨fun payloads u => ⟨_, rfl⟩, extractStepE_eq, ?_, ?_, ?_⟩
  · intro data baseUrl basePath st start k h1 h2 h3
    unfold extractStep
    simp only [h1, Bool.false_eq_true, if_false]
    simp only [h2, h3]
  · intro data
    unfold extractSingleArticleFromRSCE extractSingleArticleFromRSC strat2
    dsimp only
    rw [strat2FoldE_eq]
  · intro data
    unfold extractSanityBlocksE extractSanityBlocks
    cases hc : captureBody data with
    | none => simp [tryCatchD, hc]
    | some s =>
      cases hj : jsonParse (repairBodyStr s) <;>
        simp [tryCatchD, hc, jsonParseE, hj, Except.map]

/-! ## Function-level behaviour of findArticleStubs (claim C3) -/

/-- Joining a one-element payload list leaves the payload unchanged. -/
theorem intercalate_single (sep p : List Char) : List.intercalate sep [p] = p := by
  simp [List.intercalate]

/-- When the first character is an open bracket, it is the first candidate
start, and every other candidate lies inside the text. -/
theorem jsonStartIndices_cons (p : List Char) (hlen : 0 < p.length)
    (hp0 : ((p.getD 0 ' ' == '[') || (p.getD 0 ' ' == '\x7b')) = true) :
    ∃ t, jsonStartIndices p = 0 :: t ∧ ∀ i ∈ t, i < p.length := by
  obtain ⟨m, hm⟩ : ∃ m, p.length = m + 1 := ⟨p.length - 1, by omega⟩
  refine ⟨((List.range m).map Nat.succ).filter
    (fun i => (p.getD i ' ' == '[') || (p.getD i ' ' == '\x7b')), ?_, ?_⟩
  · unfold jsonStartIndices
    rw [hm, List.range_succ_eq_map]
    simp only [List.filter_cons, hp0, if_true]
  · intro i hi
    have h1 := (List.mem_filter.mp hi).1
    obtain ⟨j, hj, rfl⟩ := List.mem_map.mp h1
    have := List.mem_range.mp hj
    omega

/-- The first candidate of a payload whose raw bracket scan spans the
whole text and which parses: the walk runs on the full value and the
covered range is the whole text. -/
theorem extractStepE_whole (data baseUrl basePath : List Char) (v : Json)
    (hclose : naiveClose (data.getD 0 ' ')
        (if data.getD 0 ' ' = '[' then ']' else '\x7d') data 0 0 100000 = some data.length)
    (hparse : jsonParse data = some v) :
    extractStepE data baseUrl basePath ⟨[], [], []⟩ 0
      = ⟨[(0, data.length)],
         (walkJson baseUrl basePath v []).1, (walkJson baseUrl basePath v []).2⟩ := by
  unfold extractStepE
  simp only [List.any_nil, Bool.false_eq_true, if_false, List.drop_zero, hclose,
    List.take_length, jsonParseE, hparse, Except.map, tryCatchD, Nat.zero_add,
    List.nil_append]

/-- A candidate inside an already covered range is skipped. -/
theorem extractStepE_covered (data baseUrl basePath : List Char) (st : ExtState) (i : Nat)
    (h : (st.ranges.any fun r => decide (r.1 ≤ i) && decide (i < r.2)) = true) :
    extractStepE data baseUrl basePath st i = st := by
  unfold extractStepE
  rw [h]
  simp

/-- A run of covered candidates leaves the state unchanged. -/
theorem foldl_stepE_covered (data baseUrl basePath : List Char) (st : ExtState) :
    ∀ t : List Nat,
      (∀ i ∈ t, (st.ranges.any fun r => decide (r.1 ≤ i) && decide (i < r.2)) = true) →
      t.foldl (extractStepE data baseUrl basePath) st = st := by
  intro t
  induction t with
  | nil => intro _; rfl
  | cons i rest ih =>
    intro hcov
    rw [List.foldl_cons, extractStepE_covered data baseUrl basePath st i
      (hcov i (List.mem_cons_self i rest))]
    exact ih fun j hj => hcov j (List.mem_cons_of_mem i hj)

/-- Key-value list of the claim C3 counterexample object: article-shaped
(title and bare-string slug), with a close brace inside the title. -/
def c3cexKvs : List (List Char × Json) :=
  [("title".data, Json.str "T\x7d".data), ("slug".data, Json.str "s".data)]

/-- The claim C3 counterexample payload: exactly that object as text. -/
def c3cexP : List Char := "\x7b\"title\":\"T\x7d\",\"slug\":\"s\"\x7d".data

/-- Claim C3 counterexample: this payload parses to an article-shaped
object with a truthy slug (its depth-first stub enumeration is nonempty),
yet findArticleStubs emits zero stubs: the naive bracket scan truncates
the only candidate at the close brace inside the title, the truncated
fragment fails to parse, and the fallback patterns (which need an
object-wrapped slug) and the array strategy (which needs a square
bracket) match nothing. -/
theorem C3_counterexample :
    jsonParse c3cexP = some (Json.obj c3cexKvs)
    ∧ (stubOf c3cexKvs anthropicBase "/engineering".data).isSome = true
    ∧ dfsStubs anthropicBase "/engineering".data (Json.obj c3cexKvs) ≠ []
    ∧ parseAnthropicArticlesE [c3cexP] (Except.error ()) = Except.ok [] := by
  refine ⟨rfl, rfl, ?_, rfl⟩
  have hs : (stubOf c3cexKvs anthropicBase "/engineering".data).isSome = true := rfl
  rw [dfsStubs]
  cases hso : stubOf c3cexKvs anthropicBase "/engineering".data with
  | none => rw [hso] at hs; simp at hs
  | some st => simp

set_option maxRecDepth 4000 in
/-- Claim C3 (amended): at the level of findArticleStubs itself, for a
payload that is a single JSON value opening at its first character, whose
raw bracket scan spans the whole text and which parses to a value
containing at least one article-shaped object, the function emits exactly
the depth-first enumeration of article-shaped objects deduplicated by
resolved slug with the first occurrence kept (at least one stub); every
emitted stub has a truthy slug, url equal to the site base + basePath +
slash + slug, nonempty string slugs, and pairwise distinct slugs.  The
property does not hold for every payload containing an article-shaped
object: see the counterexample, where the naive bracket scan truncates
the candidate. -/
theorem C3_stubs_amended (p : List Char) (u : Except Unit (List Char)) (v : Json)
    (basePath : List Char)
    (hbp : tryCatchD (Except.map stripTrailingSlash u) "/engineering".data = basePath)
    (hp0 : ((p.getD 0 ' ' == '[') || (p.getD 0 ' ' == '\x7b')) = true)
    (hclose : naiveClose (p.getD 0 ' ')
        (if p.getD 0 ' ' = '[' then ']' else '\x7d') p 0 0 100000 = some p.length)
    (hparse : jsonParse p = some v)
    (hne : dfsStubs anthropicBase basePath v ≠ []) :
    parseAnthropicArticlesE [p] u
        = Except.ok (dedupStubs (dfsStubs anthropicBase basePath v) []).1
    ∧ (∀ st ∈ (dedupStubs (dfsStubs anthropicBase basePath v) []).1,
        truthy st.slug = true
          ∧ st.url = anthropicBase ++ basePath ++ '/' :: jsToString st.slug
          ∧ ∀ s, st.slug = Json.str s → s ≠ [])
    ∧ List.Pairwise (fun a b => jsonBeq a.slug b.slug = false)
        (dedupStubs (dfsStubs anthropicBase basePath v) []).1
    ∧ (dedupStubs (dfsStubs anthropicBase basePath v) []).1 ≠ [] := by
  have hlen : 0 < p.length := by
    cases p with
    | nil => simp [List.getD] at hp0
    | cons c t => simp
  obtain ⟨t, hidx, htlt⟩ := jsonStartIndices_cons p hlen hp0
  have hw := (walk_eq_dedup_dfs anthropicBase basePath).1 v []
  have hwne : (walkJson anthropicBase basePath v []).1 ≠ [] := by
    rw [hw]
    exact dedupStubs_ne_nil _ hne
  have hem : (walkJson anthropicBase basePath v []).1.isEmpty = false := by
    cases hcase : (walkJson anthropicBase basePath v []).1 with
    | nil => exact absurd hcase hwne
    | cons a b => rfl
  have hcov : ∀ i ∈ t,
      (((⟨[(0, p.length)], (walkJson anthropicBase basePath v []).1,
          (walkJson anthropicBase basePath v []).2⟩ : ExtState).ranges.any
        fun r => decide (r.1 ≤ i) && decide (i < r.2)) = true) := by
    intro i hi
    have h2 := htlt i hi
    simp only [List.any_cons, List.any_nil, Bool.or_false, Bool.and_eq_true,
      decide_eq_true_eq]
    omega
  refine ⟨?_, ?_, ?_, ?_⟩
  · unfold parseAnthropicArticlesE
    dsimp only
    rw [intercalate_single, hbp, hidx, List.foldl_cons,
      extractStepE_whole p anthropicBase basePath v hclose hparse,
      foldl_stepE_covered p anthropicBase basePath _ t hcov]
    simp only [hem, Bool.false_eq_true, if_false]
    rw [hw]
  · intro st hst
    have hp := (dfsStubs_props anthropicBase basePath).1 v st (dedupStubs_subset hst)
    refine ⟨hp.1, hp.2, ?_⟩
    intro s hslug hnil
    have ht := hp.1
    rw [hslug, hnil] at ht
    simp [truthy] at ht
  · exact dedupStubs_pairwise _ []
  · exact dedupStubs_ne_nil _ hne

/-- Key-value list of the claim C3 witness article object. -/
def c3wKvs : List (List Char × Json) :=
  [("title".data, Json.str "Witness Title".data),
   ("slug".data, Json.obj [("current".data, Json.str "w-slug".data)]),
   ("publishedOn".data, Json.str "2024-05-05".data)]

/-- The claim C3 witness payload: that object as text, bracket-clean. -/
def c3wP : List Char :=
  "\x7b\"title\":\"Witness Title\",\"slug\":\x7b\"current\":\"w-slug\"\x7d,\"publishedOn\":\"2024-05-05\"\x7d".data

/-- Parsed value of the claim C3 witness payload. -/
def c3wV : Json := Json.obj c3wKvs

set_option maxRecDepth 4000 in
/-- Concrete instance of the amended claim C3 theorem at an article-shaped
witness payload with an object-wrapped slug. -/
theorem C3_stubs_witness :
    parseAnthropicArticlesE [c3wP] (Except.error ())
        = Except.ok (dedupStubs (dfsStubs anthropicBase "/engineering".data c3wV) []).1
    ∧ (dedupStubs (dfsStubs anthropicBase "/engineering".data c3wV) []).1 ≠ [] := by
  have hne : dfsStubs anthropicBase "/engineering".data c3wV ≠ [] := by
    have hs : (stubOf c3wKvs anthropicBase "/engineering".data).isSome = true := rfl
    show dfsStubs anthropicBase "/engineering".data (Json.obj c3wKvs) ≠ []
    rw [dfsStubs]
    cases hso : stubOf c3wKvs anthropicBase "/engineering".data with
    | none => rw [hso] at hs; simp at hs
    | some st => simp
  have h := C3_stubs_amended c3wP (Except.error ()) c3wV "/engineering".data rfl (by decide)
    rfl rfl hne
  exact ⟨h.1, h.2.2.2⟩

end NoMeta
